import Mathlib

/-!
Verification of the PDF document store / search core of the repository
(the MCP server in `src/unnamed/part_005`: tools `register-pdf`,
`search-pdfs`, `get-pdf-content`, plus `registerPDFsFromFolder`).

Strings are embedded as `List Char` (JS strings, compared code-unit-wise;
`toLowerCase` is modelled character-wise, which is exact for ASCII text).
Numbers arriving through the tool inputs (`maxResults`, `contextLength`,
`startChar`, `length`) are embedded as `Int` (they may be negative; the
code performs no validation).
-/

namespace MpcPdf

/-- JS strings, embedded as lists of characters. -/
abbrev Str := List Char

/-- Build a `Str` from a Lean string literal. -/
def strL (s : String) : Str := s.data

/-- Embedding of `s.toLowerCase()`, character-wise (exact on ASCII). -/
def jsToLower (s : Str) : Str := s.map Char.toLower

/-- `pat` occurs in `s` at offset `j` (code-unit equality, as JS `indexOf`). -/
def occursAt (s pat : Str) (j : Nat) : Bool := ((s.drop j).take pat.length) == pat

/-- First `j' ≥ j` with `j' + |pat| ≤ |s|` and `pat` occurring at `j'`;
structural on the fuel `s.length + 1 - j` supplied by `firstOccFrom`,
which is always adequate since `j` increases by one per step. -/
def firstOccFromF (s pat : Str) : Nat → Nat → Option Nat
  | 0, _ => none
  | fuel + 1, j =>
      if j + pat.length ≤ s.length then
        (if occursAt s pat j then some j else firstOccFromF s pat fuel (j + 1))
      else none

/-- First `j' ≥ j` with `j' + |pat| ≤ |s|` and `pat` occurring at `j'`. -/
def firstOccFrom (s pat : Str) (j : Nat) : Option Nat :=
  firstOccFromF s pat (s.length + 1 - j) j

/-- Embedding of JS `s.indexOf(pat, i)` (`none` for `-1`).  The start
position is clamped to the string length; an empty `pat` is found at the
clamped start position, as in JS. -/
def jsIndexOfFrom (s pat : Str) (i : Nat) : Option Nat :=
  firstOccFrom s pat (min i s.length)

/-- Clamp a JS number used as a string index into `[0, len]`. -/
def clampIdx (len : Nat) (x : Int) : Nat := (min (max x 0) (len : Int)).toNat

/-- Embedding of JS `s.substring(a, b)`: both arguments are clamped into
`[0, s.length]` and swapped if out of order. -/
def jsSubstring (s : Str) (a b : Int) : Str :=
  let a' := clampIdx s.length a
  let b' := clampIdx s.length b
  (s.take (max a' b')).drop (min a' b')

/-- Embedding of JS `s.substring(a)` (end defaults to the length). -/
def jsSubstringFrom (s : Str) (a : Int) : Str := jsSubstring s a (s.length : Int)

/-- Whitespace as stripped by JS `trim` (ASCII part). -/
def jsIsSpace (c : Char) : Bool := c.isWhitespace

/-- Embedding of JS `s.trim()`. -/
def jsTrim (s : Str) : Str :=
  ((s.dropWhile jsIsSpace).reverse.dropWhile jsIsSpace).reverse

/-- Embedding of JS `Array.prototype.slice(a, b)`: negative indices count
from the end, then both are clamped; no swapping. -/
def jsArraySlice {α : Type} (l : List α) (a b : Int) : List α :=
  let len := l.length
  let norm : Int → Nat := fun x => if x < 0 then (max ((len : Int) + x) 0).toNat
                                   else (min x (len : Int)).toNat
  (l.take (norm b)).drop (norm a)

/-- JS truthiness of an optional number argument (`undefined` and `0` are
falsy; any other number is truthy). -/
def jsTruthyNum : Option Int → Bool
  | none => false
  | some n => n != 0

/-!
### A model of `new RegExp(pattern, 'gi')` and `String.replace`

`search-pdfs` builds `new RegExp(query, 'gi')` from the *raw* query and
uses it with `String.replace` to produce the match preview.  The model
below covers the JS regular-expression dialect to the extent the
repository can exercise it: literal characters, escapes, `.`,
character classes, groups, alternation, the quantifiers `* + ?`, and
the anchors `^ $`.  Construction of a `RegExp` from an invalid pattern
(for example an unmatched `(` or a leading `*`) throws in JS; the model
returns an `Except` error in exactly those situations, which is how an
exception escaping the tool handler is represented.

Simplifications, marked where they occur and never relied on by any
theorem: `\x7bm,n\x7d` counted quantifiers are not interpreted
(braces are treated as literals), lazy quantifiers match like greedy
ones, look-arounds are parsed but matched as plain groups, and the
word-boundary escape matches the empty string.
-/

/-- Abstract syntax of the modelled regular-expression dialect. -/
inductive RE where
  | eps : RE
  | chr (c : Char) : RE
  | dot : RE
  | cls (neg : Bool) (ranges : List (Char × Char)) : RE
  | caret : RE
  | dollar : RE
  | cat (a b : RE) : RE
  | alt (a b : RE) : RE
  | star (a : RE) : RE
  | plus (a : RE) : RE
  | opt (a : RE) : RE
deriving Repr, DecidableEq

/-- Sequence a list of regex pieces. -/
def seqOf (l : List RE) : RE := l.foldr RE.cat RE.eps

/-- The regex denoting the literal string `q` (what a metacharacter-free
pattern parses to). -/
def litRE (q : Str) : RE := seqOf (q.map RE.chr)

/-- Structural size of a regex, used for matcher fuel. -/
def reSize : RE → Nat
  | .eps | .chr _ | .dot | .cls _ _ | .caret | .dollar => 1
  | .cat a b | .alt a b => reSize a + reSize b + 1
  | .star a | .plus a | .opt a => reSize a + 1

/-- Characters with special meaning in a JS regex pattern (or in a
replacement string, for `$`). -/
def isRegexSpecial (c : Char) : Bool :=
  c = '^' || c = '$' || c = '\\' || c = '.' || c = '*' || c = '+' ||
  c = '?' || c = '(' || c = ')' || c = '[' || c = ']' || c = '{' ||
  c = '}' || c = '|'

/-- Translation of a class escape (`\d` and friends) into ranges; used
both inside and outside character classes. -/
def classEscape (c : Char) : Option (Bool × List (Char × Char)) :=
  if c = 'd' then some (false, [('0', '9')])
  else if c = 'D' then some (true, [('0', '9')])
  else if c = 'w' then some (false, [('a', 'z'), ('A', 'Z'), ('0', '9'), ('_', '_')])
  else if c = 'W' then some (true, [('a', 'z'), ('A', 'Z'), ('0', '9'), ('_', '_')])
  else if c = 's' then some (false, [(' ', ' '), ('\t', '\t'), ('\n', '\n'), ('\r', '\r'), ('\x0b', '\x0b'), ('\x0c', '\x0c')])
  else if c = 'S' then some (true, [(' ', ' '), ('\t', '\t'), ('\n', '\n'), ('\r', '\r'), ('\x0b', '\x0b'), ('\x0c', '\x0c')])
  else none

/-- Control-character escapes that denote a different literal character. -/
def escLiteral (c : Char) : Char :=
  if c = 'n' then '\n'
  else if c = 't' then '\t'
  else if c = 'r' then '\r'
  else if c = 'f' then '\x0c'
  else if c = 'v' then '\x0b'
  else if c = '0' then '\x00'
  else c

/-- Ranges contributed by a class escape inside a character class; a
negated escape is approximated by a match-all range (no theorem
exercises it). -/
def clsItemRanges (item : Bool × List (Char × Char)) : List (Char × Char) :=
  if item.1 then [('\x00', '￿')] else item.2.reverse

/-- Parse the body of a character class (after `[` and the optional `^`),
accumulating ranges until the closing `]`.  An exhausted input is the JS
`SyntaxError: unterminated character class`. -/
def parseClsBody (neg : Bool) (acc : List (Char × Char)) : Str → Except String (RE × Str)
  | [] => .error "Unterminated character class"
  | ']' :: rest => .ok (RE.cls neg acc.reverse, rest)
  | '\\' :: [] => .error "Pattern may not end with a trailing backslash"
  | '\\' :: e :: '-' :: ']' :: rest =>
      match classEscape e with
      | some item => parseClsBody neg (clsItemRanges item ++ acc) ('-' :: ']' :: rest)
      | none =>
          parseClsBody neg (('-', '-') :: (escLiteral e, escLiteral e) :: acc) (']' :: rest)
  | '\\' :: e :: '-' :: '\\' :: e2 :: rest =>
      match classEscape e with
      | some item => parseClsBody neg (clsItemRanges item ++ acc) ('-' :: '\\' :: e2 :: rest)
      | none =>
          match classEscape e2 with
          | some _ =>
              -- a class escape as a range endpoint keeps `-` literal
              parseClsBody neg (('-', '-') :: (escLiteral e, escLiteral e) :: acc)
                ('\\' :: e2 :: rest)
          | none =>
              if escLiteral e2 < escLiteral e then .error "Range out of order in character class"
              else parseClsBody neg ((escLiteral e, escLiteral e2) :: acc) rest
  | '\\' :: e :: '-' :: c2 :: rest =>
      match classEscape e with
      | some item => parseClsBody neg (clsItemRanges item ++ acc) ('-' :: c2 :: rest)
      | none =>
          if c2 < escLiteral e then .error "Range out of order in character class"
          else parseClsBody neg ((escLiteral e, c2) :: acc) rest
  | '\\' :: e :: rest =>
      match classEscape e with
      | some item => parseClsBody neg (clsItemRanges item ++ acc) rest
      | none => parseClsBody neg ((escLiteral e, escLiteral e) :: acc) rest
  | c :: '-' :: ']' :: rest => parseClsBody neg (('-', '-') :: (c, c) :: acc) (']' :: rest)
  | c :: '-' :: '\\' :: e2 :: rest =>
      match classEscape e2 with
      | some _ => parseClsBody neg (('-', '-') :: (c, c) :: acc) ('\\' :: e2 :: rest)
      | none =>
          if escLiteral e2 < c then .error "Range out of order in character class"
          else parseClsBody neg ((c, escLiteral e2) :: acc) rest
  | c :: '-' :: c2 :: rest =>
      if c2 < c then .error "Range out of order in character class"
      else parseClsBody neg ((c, c2) :: acc) rest
  | c :: rest => parseClsBody neg ((c, c) :: acc) rest
termination_by s => s.length
decreasing_by
  all_goals simp_wf
  all_goals omega

/-- Parse a character class starting right after `[`. -/
def parseCls : Str → Except String (RE × Str)
  | '^' :: rest => parseClsBody true [] rest
  | s => parseClsBody false [] s

/-- Drop the optional lazy marker after a quantifier (lazy quantifiers
are matched like greedy ones; no theorem exercises them). -/
def dropLazy : Str → Str
  | [] => []
  | c :: rest => if c = '?' then rest else c :: rest

/-- Consume a possible quantifier (`*`, `+`, `?`, each with an optional
lazy `?`) after an atom. -/
def takeQuant (a : RE) : Str → RE × Str
  | [] => (a, [])
  | c :: rest =>
      if c = '*' then (RE.star a, dropLazy rest)
      else if c = '+' then (RE.plus a, dropLazy rest)
      else if c = '?' then (RE.opt a, dropLazy rest)
      else (a, c :: rest)

/-- Scan a named-group header `?<name>` for its closing `>`. -/
def dropGroupName : Str → Except String Str
  | [] => .error "Invalid capture group name"
  | '>' :: rest => .ok rest
  | _ :: rest => dropGroupName rest

/-- Consume a group head: `(?:`, look-arounds and named groups are
accepted (look-around and name semantics are approximated by a plain
group; no theorem exercises them); `(?` followed by anything else is the
JS `SyntaxError: invalid group`. -/
def stripGroupHead : Str → Except String Str
  | '?' :: ':' :: rest => .ok rest
  | '?' :: '=' :: rest => .ok rest
  | '?' :: '!' :: rest => .ok rest
  | '?' :: '<' :: '=' :: rest => .ok rest
  | '?' :: '<' :: '!' :: rest => .ok rest
  | '?' :: '<' :: rest => dropGroupName rest
  | '?' :: _ => .error "Invalid group"
  | s => .ok s

mutual

/-- Parse a sequence of quantified atoms, stopping at `)` `|` or the end
of the pattern; `acc` holds the pieces parsed so far in order.  A
quantifier with no preceding atom is the JS `SyntaxError: nothing to
repeat`; fuel only decreases across recursion and is chosen large
enough at the top entry point. -/
def parseSeqF : Nat → List RE → Str → Except String (List RE × Str)
  | 0, _, _ => .error "Pattern too deeply nested"
  | _ + 1, acc, [] => .ok (acc, [])
  | fuel + 1, acc, c :: rest =>
      if c = ')' ∨ c = '|' then .ok (acc, c :: rest)
      else if c = '(' then
        match stripGroupHead rest with
        | .error e => .error e
        | .ok body =>
            match parseAltF fuel body with
            | .error e => .error e
            | .ok (g, rest2) =>
                match rest2 with
                | ')' :: rest3 =>
                    let p := takeQuant g rest3
                    parseSeqF fuel (acc ++ [p.1]) p.2
                | _ => .error "Unterminated group"
      else if c = '[' then
        match parseCls rest with
        | .error e => .error e
        | .ok (kl, rest2) =>
            let p := takeQuant kl rest2
            parseSeqF fuel (acc ++ [p.1]) p.2
      else if c = '\\' then
        match rest with
        | [] => .error "Pattern may not end with a trailing backslash"
        | e :: rest2 =>
            let atom : RE :=
              match classEscape e with
              | some (eneg, ranges) => RE.cls eneg ranges
              | none =>
                  -- `\b` `\B` word boundaries are approximated by the
                  -- empty match; `\uXXXX`-style escapes are not decoded
                  if e = 'b' ∨ e = 'B' then RE.eps else RE.chr (escLiteral e)
            let p := takeQuant atom rest2
            parseSeqF fuel (acc ++ [p.1]) p.2
      else if c = '*' ∨ c = '+' ∨ c = '?' then .error "Nothing to repeat"
      else
        -- `\x7b` `\x7d` `]` with no counted-quantifier reading are
        -- literals in a non-unicode JS pattern; counted quantifiers are
        -- not interpreted
        let atom : RE :=
          if c = '^' then RE.caret
          else if c = '$' then RE.dollar
          else if c = '.' then RE.dot
          else RE.chr c
        let p := takeQuant atom rest
        parseSeqF fuel (acc ++ [p.1]) p.2

/-- Parse an alternation `seq ('|' seq)*`. -/
def parseAltF : Nat → Str → Except String (RE × Str)
  | 0, _ => .error "Pattern too deeply nested"
  | fuel + 1, s =>
      match parseSeqF fuel [] s with
      | .error e => .error e
      | .ok (pieces, rest) =>
          match rest with
          | '|' :: rest2 =>
              match parseAltF fuel rest2 with
              | .error e => .error e
              | .ok (r2, rest3) => .ok (RE.alt (seqOf pieces) r2, rest3)
          | _ => .ok (seqOf pieces, rest)

end

/-- Embedding of `new RegExp(pattern, 'gi')` construction: parse the raw
pattern, propagating the `SyntaxError` thrown for an invalid pattern.  A
leftover `)` is the JS `SyntaxError: unmatched ')'`. -/
def parseRegex (pattern : Str) : Except String RE :=
  match parseAltF (3 * pattern.length + 3) pattern with
  | .error e => .error e
  | .ok (re, []) => .ok re
  | .ok (_, _ :: _) => .error "Unmatched closing parenthesis"

/-- Case-insensitive character comparison (the `i` flag). -/
def ciEq (a b : Char) : Bool := a.toLower == b.toLower

/-- Membership in a character class under the `i` flag (canonicalisation
approximated by testing the character and both of its cases). -/
def clsMatch (neg : Bool) (ranges : List (Char × Char)) (c : Char) : Bool :=
  let inR := fun (x : Char) => ranges.any (fun p => decide (p.1 ≤ x) && decide (x ≤ p.2))
  let m := inR c || inR c.toLower || inR c.toUpper
  if neg then !m else m

/-- JS `.` matches everything except line terminators. -/
def dotMatch (c : Char) : Bool :=
  !(c = '\n' || c = '\r' || c = ' ' || c = ' ')

/-- Backtracking matcher under the `i` flag: all remainders reachable by
matching `re` at the head of `s`, in JS preference order (greedy, left
alternative first), so the head of the result is the match JS commits
to.  `bol` records whether the current point is the start of the
subject (for `^`; the `m` flag is not set).  `fuel` bounds the
recursion and is chosen sufficiently large by `reMatches`. -/
def reMatchF : Nat → RE → Bool → Str → List Str
  | 0, _, _, _ => []
  | _ + 1, .eps, _, s => [s]
  | _ + 1, .chr c, _, s =>
      match s with
      | [] => []
      | x :: rest => if ciEq x c then [rest] else []
  | _ + 1, .dot, _, s =>
      match s with
      | [] => []
      | x :: rest => if dotMatch x then [rest] else []
  | _ + 1, .cls neg ranges, _, s =>
      match s with
      | [] => []
      | x :: rest => if clsMatch neg ranges x then [rest] else []
  | _ + 1, .caret, bol, s => if bol then [s] else []
  | _ + 1, .dollar, _, s => if s.isEmpty then [s] else []
  | fuel + 1, .cat a b, bol, s =>
      (reMatchF fuel a bol s).flatMap
        (fun s' => reMatchF fuel b (bol && (s'.length == s.length)) s')
  | fuel + 1, .alt a b, bol, s => reMatchF fuel a bol s ++ reMatchF fuel b bol s
  | fuel + 1, .star a, bol, s =>
      ((reMatchF fuel a bol s).filter (fun r => r.length < s.length)).flatMap
        (fun s' => reMatchF fuel (.star a) false s') ++ [s]
  | fuel + 1, .plus a, bol, s => reMatchF fuel (.cat a (.star a)) bol s
  | fuel + 1, .opt a, bol, s => reMatchF fuel a bol s ++ [s]

/-- Matcher fuel sufficient for every pattern actually reasoned about. -/
def reFuel (re : RE) (s : Str) : Nat := (reSize re + 2) * (s.length + 2)

/-- All remainders after matching `re` at the head of `s`. -/
def reMatches (re : RE) (bol : Bool) (s : Str) : List Str :=
  reMatchF (reFuel re s) re bol s

/-- Expansion of a replacement template against the matched text:
`$$` is a literal dollar and `$&` the matched text; `$`-sequences that
JS would resolve against capture groups or the context are kept literal
(no theorem exercises them). -/
def expandRepl (matched : Str) : Str → Str
  | [] => []
  | '$' :: '$' :: rest => '$' :: expandRepl matched rest
  | '$' :: '&' :: rest => matched ++ expandRepl matched rest
  | c :: rest => c :: expandRepl matched rest

/-- Embedding of JS `s.replace(re, tmpl)` for a `g`-flagged regex:
repeatedly match at the current position, emitting the expanded
replacement and advancing past the match (one character for a
zero-length match, as the JS `lastIndex` rule does).  Every step
consumes at least one character of `s`, so fuel `s.length + 1` (as
supplied by `replLoop`) always suffices; the fuel-exhaustion branch is
unreachable. -/
def replLoopF (re : RE) (tmpl : Str) : Nat → Str → Bool → Str
  | 0, s, _ => s
  | fuel + 1, s, bol =>
      match reMatches re bol s with
      | [] =>
          match s with
          | [] => []
          | c :: rest => c :: replLoopF re tmpl fuel rest false
      | s2 :: _ =>
          let matched := s.take (s.length - s2.length)
          let rep := expandRepl matched tmpl
          if s2.length < s.length then rep ++ replLoopF re tmpl fuel s2 false
          else
            match s with
            | [] => rep
            | c :: rest => rep ++ c :: replLoopF re tmpl fuel rest false

/-- The replace loop at adequate fuel. -/
def replLoop (re : RE) (tmpl s : Str) (bol : Bool) : Str :=
  replLoopF re tmpl (s.length + 1) s bol

/-- Embedding of `subject.replace(new RegExp(pattern, 'gi'), tmpl)`:
regex construction may throw; the replacement itself is total. -/
def jsReplaceGi (subject pattern tmpl : Str) : Except String Str :=
  match parseRegex pattern with
  | .error e => .error e
  | .ok re => .ok (replLoop re tmpl subject true)

/-!
### Data model (`src/main/types/pdfTypes.ts`, store in `part_005`)

The store `pdfDocuments` is an object keyed by `docId`; enumeration
(`Object.values`) follows insertion order, so it is embedded as a list
of documents in registration order.
-/

/-- Metadata recorded at registration (`info` is opaque and omitted). -/
structure PDFMetadata where
  pages : Nat
  size : Nat
  createdAt : Nat
deriving Repr, DecidableEq

/-- A registered document. -/
structure PDFDocument where
  id : Str
  filePath : Str
  filename : Str
  content : Str
  metadata : PDFMetadata
deriving Repr, DecidableEq

/-- One located occurrence, as built at lines 110–114 of the server. -/
structure SearchMatch where
  position : Nat
  context : Str
  preview : Str
deriving Repr, DecidableEq

/-- Per-document search result (lines 122–128).  The source field name
`matches` is a reserved token in Lean, hence `matchList`. -/
structure SearchResult where
  docId : Str
  filename : Str
  totalMatches : Nat
  matchList : List SearchMatch
  metadata : PDFMetadata
deriving Repr, DecidableEq

/-- Success payload of `search-pdfs` (lines 134–144). -/
structure SearchOutput where
  query : Str
  totalDocuments : Nat
  resultsFound : Nat
  results : List SearchResult
deriving Repr, DecidableEq

/-!
### `search-pdfs` (lines 91–145)

The handler takes `query`, `maxResults` (default 10) and
`contextLength` (default 200) and performs no validation.  The per-
document `while` loop terminates because every iteration appends one
match and the loop stops as soon as `matches.length >= maxResults`
(when the cap can never be reached, i.e. the query is non-empty, the
scan position strictly advances instead); the measure below captures
exactly that.  An exception escaping the handler (the unescaped
`new RegExp(query, 'gi')` at line 113) is the `Except.error` case.
-/

/-- The context window of lines 106–108:
`content.substring(Math.max(0, index - contextLength),
Math.min(content.length, index + query.length + contextLength))`. -/
def codeWindow (content query : Str) (contextLength : Int) (index : Nat) : Str :=
  jsSubstring content (max 0 ((index : Int) - contextLength))
    (min (content.length : Int) ((index : Int) + (query.length : Int) + contextLength))

/-- The highlight replacement template `**${query}**` of line 113. -/
def hlTmpl (query : Str) : Str := strL "**" ++ query ++ strL "**"

/-- The body of the `while` loop at lines 101–119: scan `contentLower`
for `queryLower` from `startIndex` onwards, building matches, stopping
at the cap.  Fuel-structural: every iteration appends exactly one match
and the loop continues only while `matches.length < maxResults`, so the
fuel `maxResults.toNat - acc.length + 1` supplied by `scanLoop` is
always adequate (and exactly aligned along the recursion). -/
def scanLoopF (content contentLower query queryLower : Str)
    (maxResults contextLength : Int) :
    Nat → Nat → List SearchMatch → Except String (List SearchMatch)
  | 0, _, acc => .ok acc
  | fuel + 1, startIndex, acc =>
      if startIndex < contentLower.length then
        match jsIndexOfFrom contentLower queryLower startIndex with
        | none => .ok acc
        | some index =>
            let context := codeWindow content query contextLength index
            match jsReplaceGi context query (strL "**" ++ query ++ strL "**") with
            | .error e => .error e
            | .ok preview =>
                let acc2 := acc ++ [⟨index, jsTrim context, preview⟩]
                if (acc2.length : Int) ≥ maxResults then .ok acc2
                else scanLoopF content contentLower query queryLower
                  maxResults contextLength fuel (index + query.length) acc2
      else .ok acc

/-- The `while` loop of lines 101–119 at its adequate fuel. -/
def scanLoop (content contentLower query queryLower : Str)
    (maxResults contextLength : Int)
    (startIndex : Nat) (acc : List SearchMatch) :
    Except String (List SearchMatch) :=
  scanLoopF content contentLower query queryLower maxResults contextLength
    (maxResults.toNat - acc.length + 1) startIndex acc

/-- The per-document part of the handler (lines 96–119): lower the
content and run the scan from position 0 with no matches yet. -/
def docScan (d : PDFDocument) (query : Str) (maxResults contextLength : Int) :
    Except String (List SearchMatch) :=
  scanLoop d.content (jsToLower d.content) query (jsToLower query)
    maxResults contextLength 0 []

/-- The result list of a matching document (lines 122–128). -/
def mkResult (d : PDFDocument) (ms : List SearchMatch) (maxResults : Int) : SearchResult :=
  { docId := d.id
    filename := d.filename
    totalMatches := ms.length
    matchList := jsArraySlice ms 0 (min (ms.length : Int) maxResults)
    metadata := d.metadata }

/-- The `for` loop over `Object.values(pdfDocuments)` (lines 95–132),
with the `results.length >= maxResults` break after each document. -/
def searchDocsLoop (query : Str) (maxResults contextLength : Int) :
    List PDFDocument → List SearchResult → Except String (List SearchResult)
  | [], acc => .ok acc
  | d :: rest, acc =>
      match docScan d query maxResults contextLength with
      | .error e => .error e
      | .ok ms =>
          let acc' := if ms.length > 0 then acc ++ [mkResult d ms maxResults] else acc
          if (acc'.length : Int) ≥ maxResults then .ok acc'
          else searchDocsLoop query maxResults contextLength rest acc'

/-- Embedding of the whole `search-pdfs` handler (lines 91–145).
`docs` is the store contents in registration order. -/
def searchPdfs (docs : List PDFDocument) (query : Str)
    (maxResults contextLength : Int) : Except String SearchOutput :=
  match searchDocsLoop query maxResults contextLength docs [] with
  | .error e => .error e
  | .ok results =>
      .ok { query := query
            totalDocuments := docs.length
            resultsFound := results.length
            results := results }

/-!
### `get-pdf-content` (lines 149–191)
-/

/-- Tagged response of `get-pdf-content`: the error payload carries only
the message; the success payload carries the five documented fields. -/
inductive GetContentResult where
  | err (error : Str) : GetContentResult
  | ok (docId filename : Str) (startChar : Int) (contentLength : Nat)
      (content : Str) : GetContentResult
deriving Repr, DecidableEq

/-- Store lookup `pdfDocuments[docId]` (ids key the object). -/
def lookupDoc (docs : List PDFDocument) (docId : Str) : Option PDFDocument :=
  docs.find? (fun d => d.id == docId)

/-- Embedding of the `get-pdf-content` handler (lines 159–190).
`startChar` defaults to 0 at the call boundary; `length` is optional
and — exactly as the code's `length ? … : …` — tested for *truthiness*,
so an explicit 0 selects the whole-remainder branch. -/
def getPdfContent (docs : List PDFDocument) (docId : Str)
    (startChar : Int) (length : Option Int) : GetContentResult :=
  match lookupDoc docs docId with
  | none => .err (strL "Document not found")
  | some doc =>
      let content :=
        if jsTruthyNum length then
          jsSubstring doc.content startChar (startChar + length.getD 0)
        else jsSubstringFrom doc.content startChar
      .ok doc.id doc.filename startChar content.length content

/-!
### Identifier generation (`register-pdf` line 34, `registerPDFsFromFolder`
line 288)

`` `pdf_${Date.now()}_${Math.random().toString(36).substr(2, 9)}` `` —
the time and the random suffix drawn by a call are modelled as inputs,
so a sequence of registrations is a list of `(now, randomSuffix)` draws.
-/

/-- Fuel-structural decimal rendering (most significant digit first).
Each step divides `n` by 10, so fuel `n + 1` is always adequate. -/
def natDecF : Nat → Nat → Str
  | 0, _ => []
  | fuel + 1, n =>
      if n < 10 then [Nat.digitChar n]
      else natDecF fuel (n / 10) ++ [Nat.digitChar (n % 10)]

/-- Decimal rendering of a natural number (the `${Date.now()}` part). -/
def natDec (n : Nat) : Str := natDecF (n + 1) n

/-- Decimal value of a digit string (left fold), used to invert
`natDec`. -/
def decVal : Str → Nat → Nat
  | [], acc => acc
  | c :: rest, acc => decVal rest (acc * 10 + (c.toNat - 48))

/-- The number denoted by a decimal digit string. -/
def parseDec (s : Str) : Nat := decVal s 0

/-- The document identifier built from one `Date.now()` /
`Math.random().toString(36).substr(2, 9)` draw. -/
def mkDocId (now : Nat) (rand : Str) : Str :=
  strL "pdf_" ++ natDec now ++ '_' :: rand

/-- The identifiers returned by a sequence of registration calls whose
clock/random draws are given. -/
def registerDocIds (draws : List (Nat × Str)) : List Str :=
  draws.map (fun p => mkDocId p.1 p.2)

/-!
### Specification-side definitions

Written from the spec's words, to be compared with the code embedding
above (refinement), and used to state counterexamples.
-/

/-- A character without special meaning in a JS regex pattern or
replacement. -/
def plainChar (c : Char) : Bool := !isRegexSpecial c

/-- A query free of regex metacharacters. -/
def plainStr (q : Str) : Bool := q.all plainChar

/-- `q` occurs case-insensitively at the head of `s`. -/
def ciStarts (q s : Str) : Bool :=
  decide (q.length ≤ s.length ∧ jsToLower (s.take q.length) = jsToLower q)

/-- The spec's scan contract, fuel-structural: find occurrences left to
right, the next search starting at `matchStart + len(query)`.  Every
step advances the position by at least one, so the fuel
`cL.length + 1` supplied by `greedyOccsFrom` is always adequate. -/
def greedyOccsFromF (cL qL : Str) : Nat → Nat → List Nat
  | 0, _ => []
  | fuel + 1, pos =>
      if qL.length = 0 then []
      else
        match jsIndexOfFrom cL qL pos with
        | none => []
        | some i => i :: greedyOccsFromF cL qL fuel (i + qL.length)

/-- The spec's scan contract: find occurrences left to right, the next
search starting at `matchStart + len(query)`.  `cL`/`qL` are the
lowered content and query (the scan is case-insensitive). -/
def greedyOccsFrom (cL qL : Str) (pos : Nat) : List Nat :=
  greedyOccsFromF cL qL (cL.length + 1) pos

/-- All non-overlapping case-insensitive occurrences, scanned from the
start of the content. -/
def greedyOccs (cL qL : Str) : List Nat := greedyOccsFrom cL qL 0

/-- The claim's context formula:
`content[max(0, pos-contextLength) .. min(len, pos+len(query)+contextLength)]`
as a mathematical slice (empty when the bounds cross), trimmed. -/
def specContextOf (content : Str) (qlen pos : Nat) (cl : Int) : Str :=
  let a : Int := max 0 ((pos : Int) - cl)
  let b : Int := min (content.length : Int) ((pos : Int) + (qlen : Int) + cl)
  jsTrim ((content.take b.toNat).drop a.toNat)

/-- The spec's preview: the given text with every case-insensitive
occurrence of `q` wrapped in the `**` highlight marker — the occurrence
itself is kept (its casing preserved) and surrounded by the marker. -/
def specWrapOccsF (q : Str) : Nat → Str → Str
  | 0, s => s
  | _ + 1, [] => []
  | fuel + 1, c :: rest =>
      if ciStarts q (c :: rest) = true ∧ q ≠ [] then
        strL "**" ++ (c :: rest).take q.length ++ strL "**" ++
          specWrapOccsF q fuel ((c :: rest).drop q.length)
      else c :: specWrapOccsF q fuel rest

/-- The spec's preview, with fuel `s.length` (adequate: each step
consumes at least one character of `s`). -/
def specWrapOccs (q s : Str) : Str := specWrapOccsF q s.length s

/-- What the code's replace actually produces on a metacharacter-free
query: every case-insensitive occurrence of `q` *replaced* by `tmpl`
(left to right, advancing past each match). -/
def litReplaceAllF (q tmpl : Str) : Nat → Str → Str
  | 0, s => s
  | _ + 1, [] => []
  | fuel + 1, c :: rest =>
      if ciStarts q (c :: rest) = true ∧ q ≠ [] then
        tmpl ++ litReplaceAllF q tmpl fuel ((c :: rest).drop q.length)
      else c :: litReplaceAllF q tmpl fuel rest

/-- Literal replace-all, with fuel `s.length` (adequate: each step
consumes at least one character of `s`). -/
def litReplaceAll (q tmpl s : Str) : Str := litReplaceAllF q tmpl s.length s

/-!
### Concrete stores and extraction helpers for scenarios
-/

/-- Build a document with fixed metadata for concrete scenarios. -/
def mkDoc (id filename content : String) : PDFDocument :=
  ⟨strL id, strL ("/docs/" ++ filename), strL filename, strL content, ⟨1, 100, 0⟩⟩

/-- The match positions per result document of a search response. -/
def outPositions (e : Except String SearchOutput) : List (List Nat) :=
  match e with
  | .error _ => []
  | .ok o => o.results.map (fun r => r.matchList.map (fun m => m.position))

/-- Per result document: `(totalMatches, matches.length)`. -/
def outCounts (e : Except String SearchOutput) : List (Nat × Nat) :=
  match e with
  | .error _ => []
  | .ok o => o.results.map (fun r => (r.totalMatches, r.matchList.length))

/-- Number of result documents of a search response. -/
def outResultCount (e : Except String SearchOutput) : Nat :=
  match e with
  | .error _ => 0
  | .ok o => o.results.length

/-- The first match of the first result document, if any. -/
def firstMatch (e : Except String SearchOutput) : Option SearchMatch :=
  match e with
  | .error _ => none
  | .ok o => o.results.head?.bind (fun r => r.matchList.head?)

/-!
## Lemmas

### Basic string-primitive facts
-/

theorem jsToLower_length (s : Str) : (jsToLower s).length = s.length :=
  List.length_map s Char.toLower

/-- A literal occurrence of a non-empty pattern fits inside the string. -/
theorem occursAt_bound {s pat : Str} {j : Nat} (hp : pat ≠ [])
    (h : occursAt s pat j = true) : j + pat.length ≤ s.length := by
  have he : (s.drop j).take pat.length = pat := by
    simpa [occursAt] using h
  have hlen : ((s.drop j).take pat.length).length = pat.length := by rw [he]
  simp only [List.length_take, List.length_drop] at hlen
  have hpl : 0 < pat.length := List.length_pos.mpr hp
  omega

/-- `substring` with ordered in-range bounds is the mathematical slice. -/
theorem jsSubstring_of_bounds (s : Str) (a b : Int) (h0 : 0 ≤ a) (hab : a ≤ b)
    (hb : b ≤ (s.length : Int)) :
    jsSubstring s a b = (s.take b.toNat).drop a.toNat := by
  have ha' : clampIdx s.length a = a.toNat := by simp only [clampIdx]; omega
  have hb' : clampIdx s.length b = b.toNat := by simp only [clampIdx]; omega
  have hmax : max (clampIdx s.length a) (clampIdx s.length b) = b.toNat := by
    rw [ha', hb']; omega
  have hmin : min (clampIdx s.length a) (clampIdx s.length b) = a.toNat := by
    rw [ha', hb']; omega
  simp only [jsSubstring, hmax, hmin]

/-- `substring` is empty when both bounds clamp to the length. -/
theorem jsSubstring_nil_of_ge (s : Str) (a b : Int)
    (ha : (s.length : Int) ≤ a) (hb : (s.length : Int) ≤ b) :
    jsSubstring s a b = [] := by
  have ha' : clampIdx s.length a = s.length := by simp only [clampIdx]; omega
  have hb' : clampIdx s.length b = s.length := by simp only [clampIdx]; omega
  simp only [jsSubstring, ha', hb', Nat.max_self, Nat.min_self]
  rw [List.take_length]
  exact List.drop_length s

theorem mem_of_mem_jsArraySlice {α : Type} {l : List α} {a b : Int} {x : α}
    (h : x ∈ jsArraySlice l a b) : x ∈ l := by
  simp only [jsArraySlice] at h
  exact List.mem_of_mem_take (List.mem_of_mem_drop h)

/-- The slice of lines 126 is the whole list when the cap is not hit. -/
theorem jsArraySlice_all {α : Type} (l : List α) (k : Int)
    (hk : (l.length : Int) ≤ k) :
    jsArraySlice l 0 (min (l.length : Int) k) = l := by
  have hm : min (l.length : Int) k = (l.length : Int) := by omega
  rw [hm]
  simp only [jsArraySlice]
  have h1 : ¬ ((l.length : Int) < 0) := by omega
  have h2 : ¬ ((0 : Int) < 0) := by omega
  simp only [h1, h2, if_false]
  have h3 : (min (l.length : Int) (l.length : Int)).toNat = l.length := by omega
  have h4 : (min (0 : Int) (l.length : Int)).toNat = 0 := by omega
  rw [h3, h4, List.take_length, List.drop_zero]

/-!
### `firstOccFrom` / `indexOf` facts
-/

/-- One-step unfolding of `firstOccFrom` (the wrapper's fuel is aligned
exactly with the recursion). -/
theorem firstOccFrom_unfold (s pat : Str) (j : Nat) :
    firstOccFrom s pat j =
      if j + pat.length ≤ s.length then
        (if occursAt s pat j then some j else firstOccFrom s pat (j + 1))
      else none := by
  show firstOccFromF s pat (s.length + 1 - j) j = _
  cases hn : s.length + 1 - j with
  | zero =>
      have hle : ¬ (j + pat.length ≤ s.length) := by omega
      rw [if_neg hle]
      rfl
  | succ n =>
      show (if j + pat.length ≤ s.length then
            (if occursAt s pat j then some j else firstOccFromF s pat n (j + 1))
            else none) = _
      have hn2 : n = s.length + 1 - (j + 1) := by omega
      rw [hn2]
      rfl

/-- A found occurrence lies at or after the start position and fits
inside the string. -/
theorem firstOccFrom_bounds (s pat : Str) (j i : Nat)
    (h : firstOccFrom s pat j = some i) :
    j ≤ i ∧ i + pat.length ≤ s.length := by
  rw [firstOccFrom_unfold] at h
  split at h
  next hle =>
    split at h
    next =>
      cases h
      exact ⟨Nat.le_refl _, hle⟩
    next =>
      have ih := firstOccFrom_bounds s pat (j + 1) i h
      exact ⟨by omega, ih.2⟩
  next => cases h
termination_by s.length + 1 - j
decreasing_by omega

/-- Bounds for `indexOf` hits. -/
theorem jsIndexOfFrom_bounds (s pat : Str) (i k : Nat)
    (h : jsIndexOfFrom s pat i = some k) :
    min i s.length ≤ k ∧ k + pat.length ≤ s.length :=
  firstOccFrom_bounds s pat _ k h

/-- A hit really is an occurrence. -/
theorem firstOccFrom_occ (s pat : Str) (j i : Nat)
    (h : firstOccFrom s pat j = some i) : occursAt s pat i = true := by
  rw [firstOccFrom_unfold] at h
  split at h
  next =>
    split at h
    next hocc => cases h; exact hocc
    next => exact firstOccFrom_occ s pat (j + 1) i h
  next => cases h
termination_by s.length + 1 - j
decreasing_by omega

/-- No occurrence lies strictly before a hit (leftmost-ness). -/
theorem firstOccFrom_min (s pat : Str) (j i : Nat)
    (h : firstOccFrom s pat j = some i) :
    ∀ j', j ≤ j' → j' < i → occursAt s pat j' = false := by
  intro j' hj hj'
  rw [firstOccFrom_unfold] at h
  split at h
  next =>
    split at h
    next => cases h; omega
    next hocc =>
      rcases Nat.eq_or_lt_of_le hj with rfl | hlt
      · exact Bool.eq_false_iff.mpr (fun hx => hocc (by simp [hx]))
      · exact firstOccFrom_min s pat (j + 1) i h j' hlt hj'
  next => cases h
termination_by s.length + 1 - j
decreasing_by omega

/-- A `none` answer means there is no occurrence at or after the start
(for a non-empty pattern). -/
theorem firstOccFrom_none (s pat : Str) (j : Nat) (hp : pat ≠ [])
    (h : firstOccFrom s pat j = none) :
    ∀ j', j ≤ j' → occursAt s pat j' = false := by
  intro j' hj
  rw [firstOccFrom_unfold] at h
  split at h
  next =>
    split at h
    next => cases h
    next hocc =>
      rcases Nat.eq_or_lt_of_le hj with rfl | hlt
      · exact Bool.eq_false_iff.mpr (fun hx => hocc (by simp [hx]))
      · exact firstOccFrom_none s pat (j + 1) hp h j' hlt
  next hle =>
    refine Bool.eq_false_iff.mpr (fun hx => ?_)
    have := occursAt_bound hp hx
    omega
termination_by s.length + 1 - j
decreasing_by omega

/-- `indexOf` from a position at or past the end finds nothing (for a
non-empty pattern). -/
theorem jsIndexOfFrom_none_of_ge (s pat : Str) (i : Nat) (hp : pat ≠ [])
    (hi : s.length ≤ i) : jsIndexOfFrom s pat i = none := by
  have hmin : min i s.length = s.length := by omega
  rw [jsIndexOfFrom, hmin, firstOccFrom_unfold]
  have hpl : 0 < pat.length := List.length_pos.mpr hp
  have : ¬ (s.length + pat.length ≤ s.length) := by omega
  simp [this]

/-!
### Characterisation of the greedy scan
-/

/-- The greedy scan from a position past the end is empty at any fuel. -/
theorem greedyOccsFromF_out (cL qL : Str) : ∀ (fuel pos : Nat), cL.length < pos →
    greedyOccsFromF cL qL fuel pos = [] := by
  intro fuel pos hpos
  cases fuel with
  | zero => rfl
  | succ fuel =>
      show (if qL.length = 0 then []
            else match jsIndexOfFrom cL qL pos with
                 | none => []
                 | some i => i :: greedyOccsFromF cL qL fuel (i + qL.length)) = []
      by_cases hq : qL.length = 0
      · rw [if_pos hq]
      · rw [if_neg hq]
        rw [jsIndexOfFrom_none_of_ge cL qL pos
          (fun hnil => hq (by rw [hnil]; rfl)) (by omega)]

/-- The greedy scan is fuel-independent beyond the adequate amount. -/
theorem greedyOccsFromF_congr (cL qL : Str) : ∀ (fuel fuel2 pos : Nat),
    cL.length + 1 - pos ≤ fuel → cL.length + 1 - pos ≤ fuel2 →
    greedyOccsFromF cL qL fuel pos = greedyOccsFromF cL qL fuel2 pos := by
  intro fuel
  induction fuel with
  | zero =>
      intro fuel2 pos h1 h2
      rw [greedyOccsFromF_out cL qL 0 pos (by omega),
        greedyOccsFromF_out cL qL fuel2 pos (by omega)]
  | succ fuel ih =>
      intro fuel2 pos h1 h2
      by_cases hpos : cL.length < pos
      · rw [greedyOccsFromF_out cL qL _ pos hpos, greedyOccsFromF_out cL qL fuel2 pos hpos]
      · cases fuel2 with
        | zero => exact absurd h2 (by omega)
        | succ fuel2 =>
            show (if qL.length = 0 then []
                  else match jsIndexOfFrom cL qL pos with
                       | none => []
                       | some i => i :: greedyOccsFromF cL qL fuel (i + qL.length)) =
                 (if qL.length = 0 then []
                  else match jsIndexOfFrom cL qL pos with
                       | none => []
                       | some i => i :: greedyOccsFromF cL qL fuel2 (i + qL.length))
            by_cases hq : qL.length = 0
            · rw [if_pos hq, if_pos hq]
            · rw [if_neg hq, if_neg hq]
              cases ho : jsIndexOfFrom cL qL pos with
              | none => rfl
              | some i =>
                  have hb := jsIndexOfFrom_bounds cL qL pos i ho
                  have hb1 := hb.1
                  have hb2 := hb.2
                  show i :: greedyOccsFromF cL qL fuel (i + qL.length) =
                    i :: greedyOccsFromF cL qL fuel2 (i + qL.length)
                  rw [ih fuel2 (i + qL.length) (by omega) (by omega)]

/-- One-step unfolding of the greedy scan. -/
theorem greedyOccsFrom_unfold (cL qL : Str) (pos : Nat) :
    greedyOccsFrom cL qL pos =
      if qL.length = 0 then []
      else
        match jsIndexOfFrom cL qL pos with
        | none => []
        | some i => i :: greedyOccsFrom cL qL (i + qL.length) := by
  show (if qL.length = 0 then []
        else match jsIndexOfFrom cL qL pos with
             | none => []
             | some i => i :: greedyOccsFromF cL qL cL.length (i + qL.length)) = _
  by_cases hq : qL.length = 0
  · rw [if_pos hq, if_pos hq]
  · rw [if_neg hq, if_neg hq]
    cases ho : jsIndexOfFrom cL qL pos with
    | none => rfl
    | some i =>
        have hq1 : 0 < qL.length := by omega
        show i :: greedyOccsFromF cL qL cL.length (i + qL.length) =
          i :: greedyOccsFrom cL qL (i + qL.length)
        rw [greedyOccsFromF_congr cL qL cL.length (cL.length + 1) (i + qL.length)
          (by omega) (by omega)]
        rfl

/-- Unfolding: no hit, empty scan. -/
theorem greedyOccsFrom_eq_nil (cL qL : Str) (pos : Nat) (hq : ¬ qL.length = 0)
    (ho : jsIndexOfFrom cL qL pos = none) : greedyOccsFrom cL qL pos = [] := by
  rw [greedyOccsFrom_unfold, if_neg hq, ho]

/-- Unfolding: a hit contributes its position and the scan continues past
the match. -/
theorem greedyOccsFrom_eq_cons (cL qL : Str) (pos i : Nat) (hq : ¬ qL.length = 0)
    (ho : jsIndexOfFrom cL qL pos = some i) :
    greedyOccsFrom cL qL pos = i :: greedyOccsFrom cL qL (i + qL.length) := by
  rw [greedyOccsFrom_unfold, if_neg hq, ho]

/-- Every scanned position is within range. -/
theorem greedyOccsFrom_mem_bounds (cL qL : Str) (pos : Nat) :
    ∀ p ∈ greedyOccsFrom cL qL pos, min pos cL.length ≤ p ∧ p + qL.length ≤ cL.length := by
  intro p hp
  by_cases hq : qL.length = 0
  · rw [greedyOccsFrom_unfold, if_pos hq] at hp
    cases hp
  · cases ho : jsIndexOfFrom cL qL pos with
    | none =>
        rw [greedyOccsFrom_eq_nil cL qL pos hq ho] at hp
        cases hp
    | some i =>
        rw [greedyOccsFrom_eq_cons cL qL pos i hq ho] at hp
        have hb := jsIndexOfFrom_bounds cL qL pos i ho
        have hb1 := hb.1
        have hb2 := hb.2
        rcases List.mem_cons.mp hp with rfl | hp2
        · exact hb
        · have := greedyOccsFrom_mem_bounds cL qL (i + qL.length) p hp2
          exact ⟨by omega, this.2⟩
termination_by cL.length + qL.length - pos
decreasing_by omega

/-- Every scanned position is a genuine case-insensitive occurrence. -/
theorem greedyOccsFrom_occ (cL qL : Str) (pos : Nat) :
    ∀ p ∈ greedyOccsFrom cL qL pos, occursAt cL qL p = true := by
  intro p hp
  by_cases hq : qL.length = 0
  · rw [greedyOccsFrom_unfold, if_pos hq] at hp
    cases hp
  · cases ho : jsIndexOfFrom cL qL pos with
    | none =>
        rw [greedyOccsFrom_eq_nil cL qL pos hq ho] at hp
        cases hp
    | some i =>
        rw [greedyOccsFrom_eq_cons cL qL pos i hq ho] at hp
        have hb := jsIndexOfFrom_bounds cL qL pos i ho
        have hb1 := hb.1
        have hb2 := hb.2
        rcases List.mem_cons.mp hp with rfl | hp2
        · exact firstOccFrom_occ cL qL _ p ho
        · exact greedyOccsFrom_occ cL qL (i + qL.length) p hp2
termination_by cL.length + qL.length - pos
decreasing_by omega

/-- The scanned positions are non-overlapping: each next position lies at
least `len(query)` past the previous one. -/
theorem greedyOccsFrom_chain (cL qL : Str) (pos : Nat) :
    List.Chain' (fun a b => a + qL.length ≤ b) (greedyOccsFrom cL qL pos) := by
  by_cases hq : qL.length = 0
  · rw [greedyOccsFrom_unfold, if_pos hq]
    exact List.chain'_nil
  · cases ho : jsIndexOfFrom cL qL pos with
    | none =>
        rw [greedyOccsFrom_eq_nil cL qL pos hq ho]
        exact List.chain'_nil
    | some i =>
        rw [greedyOccsFrom_eq_cons cL qL pos i hq ho]
        have hb := jsIndexOfFrom_bounds cL qL pos i ho
        have hb1 := hb.1
        have hb2 := hb.2
        refine List.chain'_cons'.mpr ⟨?_, greedyOccsFrom_chain cL qL (i + qL.length)⟩
        intro b hbm
        have hmem : b ∈ greedyOccsFrom cL qL (i + qL.length) := List.mem_of_mem_head? hbm
        have hbd := (greedyOccsFrom_mem_bounds cL qL (i + qL.length) b hmem).1
        omega
termination_by cL.length + qL.length - pos
decreasing_by omega

/-- Completeness: every case-insensitive occurrence at or after the scan
start overlaps some scanned position (so the scan misses no occurrence,
counting each overlapping cluster once). -/
theorem greedyOccsFrom_complete (cL qL : Str) (pos : Nat) (hq : qL ≠ []) :
    ∀ j, pos ≤ j → occursAt cL qL j = true →
      ∃ p ∈ greedyOccsFrom cL qL pos, p ≤ j ∧ j < p + qL.length := by
  have hql : 0 < qL.length := List.length_pos.mpr hq
  have hq0 : ¬ qL.length = 0 := by omega
  intro j hj hocc
  cases ho : jsIndexOfFrom cL qL pos with
  | none =>
      exfalso
      have hjb := occursAt_bound hq hocc
      have hple : pos ≤ cL.length := by omega
      have hmin : min pos cL.length = pos := by omega
      rw [jsIndexOfFrom, hmin] at ho
      have := firstOccFrom_none cL qL pos hq ho j hj
      rw [this] at hocc
      cases hocc
  | some i =>
      have hb := jsIndexOfFrom_bounds cL qL pos i ho
      have hb1 := hb.1
      have hb2 := hb.2
      rw [greedyOccsFrom_eq_cons cL qL pos i hq0 ho]
      by_cases hcase : j < i
      · exfalso
        have hjb := occursAt_bound hq hocc
        have hple : pos ≤ cL.length := by omega
        have hmin : min pos cL.length = pos := by omega
        rw [jsIndexOfFrom, hmin] at ho
        have := firstOccFrom_min cL qL pos i ho j hj hcase
        rw [this] at hocc
        cases hocc
      · by_cases hcase2 : j < i + qL.length
        · exact ⟨i, List.mem_cons_self _ _, by omega, hcase2⟩
        · obtain ⟨p, hp, hpj⟩ := greedyOccsFrom_complete cL qL (i + qL.length) hq j
            (by omega) hocc
          exact ⟨p, List.mem_cons_of_mem _ hp, hpj⟩
termination_by cL.length + qL.length - pos
decreasing_by omega

/-!
### Unfolding and properties of the per-document scan loop
-/

/-- Definitional unfolding of `scanLoopF` at positive fuel. -/
theorem scanLoopF_succ (content cL q qL : Str) (k cl : Int) (fuel si : Nat)
    (acc : List SearchMatch) :
    scanLoopF content cL q qL k cl (fuel + 1) si acc =
      (if si < cL.length then
        match jsIndexOfFrom cL qL si with
        | none => .ok acc
        | some index =>
            let context := codeWindow content q cl index
            match jsReplaceGi context q (strL "**" ++ q ++ strL "**") with
            | .error e => .error e
            | .ok preview =>
                let acc2 := acc ++ [⟨index, jsTrim context, preview⟩]
                if (acc2.length : Int) ≥ k then .ok acc2
                else scanLoopF content cL q qL k cl fuel (index + q.length) acc2
      else .ok acc) := rfl

theorem scanLoop_eq_exit (content cL q qL : Str) (k cl : Int) (si : Nat)
    (acc : List SearchMatch) (h : ¬ si < cL.length) :
    scanLoop content cL q qL k cl si acc = .ok acc := by
  unfold scanLoop
  rw [scanLoopF_succ]
  simp [h]

theorem scanLoop_eq_none (content cL q qL : Str) (k cl : Int) (si : Nat)
    (acc : List SearchMatch) (h : si < cL.length)
    (ho : jsIndexOfFrom cL qL si = none) :
    scanLoop content cL q qL k cl si acc = .ok acc := by
  unfold scanLoop
  rw [scanLoopF_succ]
  simp [h, ho]

theorem scanLoop_eq_err (content cL q qL : Str) (k cl : Int) (si i : Nat)
    (acc : List SearchMatch) (e : String) (h : si < cL.length)
    (ho : jsIndexOfFrom cL qL si = some i)
    (he : jsReplaceGi (codeWindow content q cl i) q (hlTmpl q) = .error e) :
    scanLoop content cL q qL k cl si acc = .error e := by
  unfold scanLoop
  rw [scanLoopF_succ]
  simp only [hlTmpl] at he
  simp only [if_pos h, ho, he]

theorem scanLoop_eq_cap (content cL q qL : Str) (k cl : Int) (si i : Nat)
    (acc : List SearchMatch) (preview : Str) (h : si < cL.length)
    (ho : jsIndexOfFrom cL qL si = some i)
    (hr : jsReplaceGi (codeWindow content q cl i) q (hlTmpl q) = .ok preview)
    (hcap : ((acc.length + 1 : Nat) : Int) ≥ k) :
    scanLoop content cL q qL k cl si acc =
      .ok (acc ++ [⟨i, jsTrim (codeWindow content q cl i), preview⟩]) := by
  unfold scanLoop
  rw [scanLoopF_succ]
  simp only [hlTmpl] at hr
  simp only [if_pos h, ho, hr]
  rw [if_pos (by simpa using hcap)]

theorem scanLoop_eq_step (content cL q qL : Str) (k cl : Int) (si i : Nat)
    (acc : List SearchMatch) (preview : Str) (h : si < cL.length)
    (ho : jsIndexOfFrom cL qL si = some i)
    (hr : jsReplaceGi (codeWindow content q cl i) q (hlTmpl q) = .ok preview)
    (hcap : ¬ ((acc.length + 1 : Nat) : Int) ≥ k) :
    scanLoop content cL q qL k cl si acc =
      scanLoop content cL q qL k cl (i + q.length)
        (acc ++ [⟨i, jsTrim (codeWindow content q cl i), preview⟩]) := by
  unfold scanLoop
  rw [scanLoopF_succ]
  simp only [hlTmpl] at hr
  simp only [if_pos h, ho, hr]
  rw [if_neg (by simpa using hcap)]
  have hfuel : k.toNat - acc.length =
      k.toNat - (acc ++ [(⟨i, jsTrim (codeWindow content q cl i), preview⟩ : SearchMatch)]).length + 1 := by
    simp only [List.length_append, List.length_cons, List.length_nil]
    omega
  rw [hfuel]

/-- The loop never throws when the query parses as a regex (the only
exception source is `new RegExp` at line 113). -/
theorem scanLoop_ok_of_parse (content cL q qL : Str) (k cl : Int) (re : RE)
    (hp : parseRegex q = .ok re) (si : Nat) (acc : List SearchMatch) :
    ∃ ms, scanLoop content cL q qL k cl si acc = .ok ms := by
  by_cases hlt : si < cL.length
  · cases ho : jsIndexOfFrom cL qL si with
    | none => exact ⟨acc, scanLoop_eq_none content cL q qL k cl si acc hlt ho⟩
    | some i =>
        cases hrep : jsReplaceGi (codeWindow content q cl i) q (hlTmpl q) with
        | error e =>
            exfalso
            simp only [hlTmpl] at hrep
            simp only [jsReplaceGi, hp] at hrep
            exact Except.noConfusion hrep
        | ok preview =>
            by_cases hcap : ((acc.length + 1 : Nat) : Int) ≥ k
            · exact ⟨_, scanLoop_eq_cap content cL q qL k cl si i acc preview hlt ho hrep hcap⟩
            · obtain ⟨ms, hms⟩ := scanLoop_ok_of_parse content cL q qL k cl re hp
                (i + q.length) (acc ++ [⟨i, jsTrim (codeWindow content q cl i), preview⟩])
              refine ⟨ms, ?_⟩
              rw [scanLoop_eq_step content cL q qL k cl si i acc preview hlt ho hrep hcap]
              exact hms
  · exact ⟨acc, scanLoop_eq_exit content cL q qL k cl si acc hlt⟩
termination_by k.toNat - acc.length
decreasing_by
  simp only [List.length_append, List.length_cons, List.length_nil]
  omega

/-- The loop caps the number of collected matches at `maxResults`. -/
theorem scanLoop_length_le (content cL q qL : Str) (k cl : Int)
    (si : Nat) (acc ms : List SearchMatch) (hacc : (acc.length : Int) < k)
    (hms : scanLoop content cL q qL k cl si acc = .ok ms) : ms.length ≤ k.toNat := by
  by_cases hlt : si < cL.length
  · cases ho : jsIndexOfFrom cL qL si with
    | none =>
        rw [scanLoop_eq_none content cL q qL k cl si acc hlt ho] at hms
        cases hms
        omega
    | some i =>
        cases hrep : jsReplaceGi (codeWindow content q cl i) q (hlTmpl q) with
        | error e =>
            rw [scanLoop_eq_err content cL q qL k cl si i acc e hlt ho hrep] at hms
            cases hms
        | ok preview =>
            by_cases hcap : ((acc.length + 1 : Nat) : Int) ≥ k
            · rw [scanLoop_eq_cap content cL q qL k cl si i acc preview hlt ho hrep hcap] at hms
              cases hms
              simp only [List.length_append, List.length_cons, List.length_nil]
              omega
            · rw [scanLoop_eq_step content cL q qL k cl si i acc preview hlt ho hrep hcap] at hms
              exact scanLoop_length_le content cL q qL k cl (i + q.length) _ ms
                (by simp only [List.length_append, List.length_cons, List.length_nil]; push_cast at hcap ⊢; omega)
                hms
  · rw [scanLoop_eq_exit content cL q qL k cl si acc hlt] at hms
    cases hms
    omega
termination_by k.toNat - acc.length
decreasing_by
  simp only [List.length_append, List.length_cons, List.length_nil]
  omega

/-- The positions collected by the loop are exactly the greedy-scan
positions, capped at `maxResults`. -/
theorem scanLoop_positions (content cL q qL : Str) (k cl : Int)
    (hq : q ≠ []) (hlen : qL.length = q.length)
    (si : Nat) (acc ms : List SearchMatch) (hacc : (acc.length : Int) < k)
    (hms : scanLoop content cL q qL k cl si acc = .ok ms) :
    ms.map (fun m => m.position) =
      acc.map (fun m => m.position) ++
        (greedyOccsFrom cL qL si).take (k.toNat - acc.length) := by
  have hq0 : ¬ qL.length = 0 := by
    have := List.length_pos.mpr hq
    omega
  by_cases hlt : si < cL.length
  · cases ho : jsIndexOfFrom cL qL si with
    | none =>
        rw [scanLoop_eq_none content cL q qL k cl si acc hlt ho] at hms
        cases hms
        rw [greedyOccsFrom_eq_nil cL qL si hq0 ho]
        simp
    | some i =>
        cases hrep : jsReplaceGi (codeWindow content q cl i) q (hlTmpl q) with
        | error e =>
            rw [scanLoop_eq_err content cL q qL k cl si i acc e hlt ho hrep] at hms
            cases hms
        | ok preview =>
            by_cases hcap : ((acc.length + 1 : Nat) : Int) ≥ k
            · rw [scanLoop_eq_cap content cL q qL k cl si i acc preview hlt ho hrep hcap] at hms
              cases hms
              have htake : k.toNat - acc.length = 1 := by
                push_cast at hacc hcap
                omega
              rw [greedyOccsFrom_eq_cons cL qL si i hq0 ho, htake]
              simp
            · rw [scanLoop_eq_step content cL q qL k cl si i acc preview hlt ho hrep hcap] at hms
              have hacc2 : (((acc ++ [(⟨i, jsTrim (codeWindow content q cl i), preview⟩ : SearchMatch)]).length : Nat) : Int) < k := by
                simp only [List.length_append, List.length_cons, List.length_nil]
                push_cast at hcap ⊢
                omega
              have hrec := scanLoop_positions content cL q qL k cl hq hlen
                (i + q.length) _ ms hacc2 hms
              simp only [List.map_append, List.map_cons, List.map_nil,
                List.length_append, List.length_cons, List.length_nil] at hrec
              rw [hrec, greedyOccsFrom_eq_cons cL qL si i hq0 ho]
              have hpos : k.toNat - acc.length = (k.toNat - (acc.length + 1)) + 1 := by
                push_cast at hacc
                omega
              rw [hlen, hpos, List.take_succ_cons]
              simp only [List.append_assoc, List.singleton_append]
  · rw [scanLoop_eq_exit content cL q qL k cl si acc hlt] at hms
    cases hms
    have hnone : jsIndexOfFrom cL qL si = none := by
      apply jsIndexOfFrom_none_of_ge
      · intro hnil
        rw [hnil] at hq0
        exact hq0 rfl
      · omega
    rw [greedyOccsFrom_eq_nil cL qL si hq0 hnone]
    simp
termination_by k.toNat - acc.length
decreasing_by
  simp only [List.length_append, List.length_cons, List.length_nil]
  omega

/-- Every match collected by the loop (beyond the accumulator) records a
genuine occurrence, its trimmed window as context, and the regex-replace
of its untrimmed window as preview. -/
theorem scanLoop_mem (content cL q qL : Str) (k cl : Int)
    (si : Nat) (acc ms : List SearchMatch)
    (hms : scanLoop content cL q qL k cl si acc = .ok ms) :
    ∀ m ∈ ms, m ∈ acc ∨
      (m.position + qL.length ≤ cL.length ∧
       occursAt cL qL m.position = true ∧
       m.context = jsTrim (codeWindow content q cl m.position) ∧
       jsReplaceGi (codeWindow content q cl m.position) q (hlTmpl q) = .ok m.preview) := by
  intro m hm
  by_cases hlt : si < cL.length
  · cases ho : jsIndexOfFrom cL qL si with
    | none =>
        rw [scanLoop_eq_none content cL q qL k cl si acc hlt ho] at hms
        cases hms
        exact Or.inl hm
    | some i =>
        cases hrep : jsReplaceGi (codeWindow content q cl i) q (hlTmpl q) with
        | error e =>
            rw [scanLoop_eq_err content cL q qL k cl si i acc e hlt ho hrep] at hms
            cases hms
        | ok preview =>
            by_cases hcap : ((acc.length + 1 : Nat) : Int) ≥ k
            · rw [scanLoop_eq_cap content cL q qL k cl si i acc preview hlt ho hrep hcap] at hms
              cases hms
              rcases List.mem_append.mp hm with hmem | hmem
              · exact Or.inl hmem
              · right
                rcases List.mem_singleton.mp hmem with rfl
                have hb := jsIndexOfFrom_bounds cL qL si i ho
                exact ⟨hb.2, firstOccFrom_occ cL qL _ i ho, rfl, hrep⟩
            · rw [scanLoop_eq_step content cL q qL k cl si i acc preview hlt ho hrep hcap] at hms
              rcases scanLoop_mem content cL q qL k cl (i + q.length) _ ms hms m hm with hmem | hfact
              · rcases List.mem_append.mp hmem with hmem2 | hmem2
                · exact Or.inl hmem2
                · right
                  rcases List.mem_singleton.mp hmem2 with rfl
                  have hb := jsIndexOfFrom_bounds cL qL si i ho
                  exact ⟨hb.2, firstOccFrom_occ cL qL _ i ho, rfl, hrep⟩
              · exact Or.inr hfact
  · rw [scanLoop_eq_exit content cL q qL k cl si acc hlt] at hms
    cases hms
    exact Or.inl hm
termination_by k.toNat - acc.length
decreasing_by
  simp only [List.length_append, List.length_cons, List.length_nil]
  omega

/-!
### The document loop and result assembly
-/

/-- The matches slice keeps only elements of the scan result. -/
theorem mem_of_mem_matchList {d : PDFDocument} {ms : List SearchMatch}
    {k : Int} {m : SearchMatch} (h : m ∈ (mkResult d ms k).matchList) : m ∈ ms :=
  mem_of_mem_jsArraySlice h

/-- When the scan collected at most `maxResults` matches (always the
case for `maxResults ≥ 1`), the slice at line 126 is the whole list, so
`totalMatches` equals the length of the returned matches. -/
theorem mkResult_matchList_all (d : PDFDocument) (ms : List SearchMatch)
    (k : Int) (hle : (ms.length : Int) ≤ k) :
    (mkResult d ms k).matchList = ms := by
  unfold mkResult
  exact jsArraySlice_all ms k hle

/-- Provenance: every returned `SearchResult` beyond the accumulator
comes from some stored document via `docScan` and `mkResult`. -/
theorem searchDocsLoop_provenance (q : Str) (k cl : Int) :
    ∀ docs (acc rs : List SearchResult), searchDocsLoop q k cl docs acc = .ok rs →
      ∀ r ∈ rs, r ∈ acc ∨
        ∃ d ∈ docs, ∃ ms, docScan d q k cl = .ok ms ∧ ms.length > 0 ∧ r = mkResult d ms k := by
  intro docs
  induction docs with
  | nil =>
      intro acc rs h r hr
      cases h
      exact Or.inl hr
  | cons d rest ih =>
      intro acc rs h r hr
      rw [searchDocsLoop] at h
      cases hscan : docScan d q k cl with
      | error e => rw [hscan] at h; cases h
      | ok ms =>
          rw [hscan] at h
          by_cases hpos : ms.length > 0
          · simp only [hpos, if_true] at h
            split at h
            · cases h
              rcases List.mem_append.mp hr with hmem | hmem
              · exact Or.inl hmem
              · rcases List.mem_singleton.mp hmem with rfl
                exact Or.inr ⟨d, List.mem_cons_self _ _, ms, hscan, hpos, rfl⟩
            · rcases ih _ rs h r hr with hmem | ⟨d2, hd2, ms2, h1, h2, h3⟩
              · rcases List.mem_append.mp hmem with hmem2 | hmem2
                · exact Or.inl hmem2
                · rcases List.mem_singleton.mp hmem2 with rfl
                  exact Or.inr ⟨d, List.mem_cons_self _ _, ms, hscan, hpos, rfl⟩
              · exact Or.inr ⟨d2, List.mem_cons_of_mem _ hd2, ms2, h1, h2, h3⟩
          · simp only [hpos, if_false] at h
            split at h
            · cases h
              exact Or.inl hr
            · rcases ih _ rs h r hr with hmem | ⟨d2, hd2, ms2, h1, h2, h3⟩
              · exact Or.inl hmem
              · exact Or.inr ⟨d2, List.mem_cons_of_mem _ hd2, ms2, h1, h2, h3⟩

/-- The per-query result list never exceeds `maxResults` documents. -/
theorem searchDocsLoop_length (q : Str) (k cl : Int) :
    ∀ docs (acc rs : List SearchResult), (acc.length : Int) < k →
      searchDocsLoop q k cl docs acc = .ok rs → rs.length ≤ k.toNat := by
  intro docs
  induction docs with
  | nil =>
      intro acc rs hacc h
      cases h
      omega
  | cons d rest ih =>
      intro acc rs hacc h
      rw [searchDocsLoop] at h
      cases hscan : docScan d q k cl with
      | error e => rw [hscan] at h; cases h
      | ok ms =>
          rw [hscan] at h
          by_cases hpos : ms.length > 0
          · simp only [hpos, if_true] at h
            split at h
            · cases h
              simp only [List.length_append, List.length_cons, List.length_nil]
              omega
            · refine ih _ rs ?_ h
              next hlt =>
              simp only [List.length_append, List.length_cons, List.length_nil] at hlt ⊢
              push_cast at hlt ⊢
              omega
          · simp only [hpos, if_false] at h
            split at h
            · cases h
              omega
            · exact ih _ rs hacc h

/-- The loop never throws when the query parses as a regex. -/
theorem searchDocsLoop_ok_of_parse (q : Str) (k cl : Int) (re : RE)
    (hp : parseRegex q = .ok re) :
    ∀ docs (acc : List SearchResult), ∃ rs, searchDocsLoop q k cl docs acc = .ok rs := by
  intro docs
  induction docs with
  | nil => intro acc; exact ⟨acc, rfl⟩
  | cons d rest ih =>
      intro acc
      obtain ⟨ms, hms⟩ := scanLoop_ok_of_parse d.content (jsToLower d.content) q
        (jsToLower q) k cl re hp 0 []
      rw [searchDocsLoop]
      rw [show docScan d q k cl = .ok ms from hms]
      by_cases hpos : ms.length > 0
      · simp only [hpos, if_true]
        split
        · exact ⟨_, rfl⟩
        · exact ih _
      · simp only [hpos, if_false]
        split
        · exact ⟨_, rfl⟩
        · exact ih _

/-- Elimination form of a successful `search-pdfs` call. -/
theorem searchPdfs_ok_elim (docs : List PDFDocument) (q : Str) (k cl : Int)
    (out : SearchOutput) (h : searchPdfs docs q k cl = .ok out) :
    ∃ rs, searchDocsLoop q k cl docs [] = .ok rs ∧
      out = ⟨q, docs.length, rs.length, rs⟩ := by
  unfold searchPdfs at h
  cases hd : searchDocsLoop q k cl docs [] with
  | error e => rw [hd] at h; cases h
  | ok rs =>
      rw [hd] at h
      cases h
      exact ⟨rs, rfl, rfl⟩

/-- `search-pdfs` never throws when the query parses as a regex; in
particular it performs no validation of `query`, `maxResults` or
`contextLength`. -/
theorem searchPdfs_ok_of_parse (docs : List PDFDocument) (q : Str) (k cl : Int)
    (re : RE) (hp : parseRegex q = .ok re) :
    (searchPdfs docs q k cl).isOk = true := by
  obtain ⟨rs, hrs⟩ := searchDocsLoop_ok_of_parse q k cl re hp docs []
  unfold searchPdfs
  rw [hrs]
  rfl

/-!
### Literal behaviour of the regex model on metacharacter-free patterns
-/

/-- Definitional unfolding of `parseSeqF` on a non-empty input. -/
theorem parseSeqF_cons (fuel : Nat) (acc : List RE) (c : Char) (rest : Str) :
    parseSeqF (fuel + 1) acc (c :: rest) =
      (if c = ')' ∨ c = '|' then .ok (acc, c :: rest)
      else if c = '(' then
        match stripGroupHead rest with
        | .error e => .error e
        | .ok body =>
            match parseAltF fuel body with
            | .error e => .error e
            | .ok (g, rest2) =>
                match rest2 with
                | ')' :: rest3 =>
                    let p := takeQuant g rest3
                    parseSeqF fuel (acc ++ [p.1]) p.2
                | _ => .error "Unterminated group"
      else if c = '[' then
        match parseCls rest with
        | .error e => .error e
        | .ok (kl, rest2) =>
            let p := takeQuant kl rest2
            parseSeqF fuel (acc ++ [p.1]) p.2
      else if c = '\\' then
        match rest with
        | [] => .error "Pattern may not end with a trailing backslash"
        | e :: rest2 =>
            let atom : RE :=
              match classEscape e with
              | some (eneg, ranges) => RE.cls eneg ranges
              | none => if e = 'b' ∨ e = 'B' then RE.eps else RE.chr (escLiteral e)
            let p := takeQuant atom rest2
            parseSeqF fuel (acc ++ [p.1]) p.2
      else if c = '*' ∨ c = '+' ∨ c = '?' then .error "Nothing to repeat"
      else
        let atom : RE :=
          if c = '^' then RE.caret
          else if c = '$' then RE.dollar
          else if c = '.' then RE.dot
          else RE.chr c
        let p := takeQuant atom rest
        parseSeqF fuel (acc ++ [p.1]) p.2) := rfl

/-- Definitional unfolding of `parseAltF`. -/
theorem parseAltF_succ (fuel : Nat) (s : Str) :
    parseAltF (fuel + 1) s =
      (match parseSeqF fuel [] s with
      | .error e => .error e
      | .ok (pieces, rest) =>
          match rest with
          | '|' :: rest2 =>
              match parseAltF fuel rest2 with
              | .error e => .error e
              | .ok (r2, rest3) => .ok (RE.alt (seqOf pieces) r2, rest3)
          | _ => .ok (seqOf pieces, rest)) := rfl

/-- On input whose head is not a quantifier, `takeQuant` is the identity. -/
theorem takeQuant_plain (a : RE) (s : Str)
    (h : ∀ c, s.head? = some c → plainChar c = true) : takeQuant a s = (a, s) := by
  cases s with
  | nil => rfl
  | cons c rest =>
      have hc := h c rfl
      have h1 : ¬ c = '*' := by rintro rfl; simp [plainChar, isRegexSpecial] at hc
      have h2 : ¬ c = '+' := by rintro rfl; simp [plainChar, isRegexSpecial] at hc
      have h3 : ¬ c = '?' := by rintro rfl; simp [plainChar, isRegexSpecial] at hc
      simp [takeQuant, h1, h2, h3]

/-- A metacharacter-free pattern parses as the sequence of its literal
characters. -/
theorem parseSeqF_plain : ∀ (s : Str) (fuel : Nat) (acc : List RE),
    plainStr s = true → s.length + 1 ≤ fuel →
    parseSeqF fuel acc s = .ok (acc ++ s.map RE.chr, []) := by
  intro s
  induction s with
  | nil =>
      intro fuel acc hplain hfuel
      cases fuel with
      | zero => exact absurd hfuel (by omega)
      | succ fuel => simp [parseSeqF]
  | cons c t ih =>
      intro fuel acc hplain hfuel
      have hc : plainChar c = true := by
        simp only [plainStr, List.all_cons, Bool.and_eq_true] at hplain
        exact hplain.1
      have ht : plainStr t = true := by
        simp only [plainStr, List.all_cons, Bool.and_eq_true] at hplain
        exact hplain.2
      have hhead : ∀ c2, t.head? = some c2 → plainChar c2 = true := by
        intro c2 hc2
        cases t with
        | nil => cases hc2
        | cons x xs =>
            cases hc2
            simp only [plainStr, List.all_cons, Bool.and_eq_true] at ht
            exact ht.1
      have hne : ∀ x : Char, isRegexSpecial x = true → ¬ c = x := by
        intro x hx heq
        rw [heq] at hc
        simp [plainChar, hx] at hc
      cases fuel with
      | zero => exact absurd hfuel (by omega)
      | succ fuel =>
        rw [parseSeqF_cons]
        rw [if_neg (by
          rintro (rfl | rfl)
          · exact hne ')' (by decide) rfl
          · exact hne '|' (by decide) rfl)]
        rw [if_neg (hne '(' (by decide))]
        rw [if_neg (hne '[' (by decide))]
        rw [if_neg (hne '\\' (by decide))]
        rw [if_neg (by
          rintro (rfl | rfl | rfl)
          · exact hne '*' (by decide) rfl
          · exact hne '+' (by decide) rfl
          · exact hne '?' (by decide) rfl)]
        simp only [if_neg (hne '^' (by decide)), if_neg (hne '$' (by decide)),
          if_neg (hne '.' (by decide))]
        rw [takeQuant_plain (RE.chr c) t hhead]
        rw [ih fuel (acc ++ [RE.chr c]) ht
          (by simp only [List.length_cons] at hfuel; omega)]
        simp

/-- A metacharacter-free pattern (in particular: no `|`) parses whole as
its literal sequence. -/
theorem parseAltF_plain (s : Str) (fuel : Nat) (hplain : plainStr s = true)
    (hfuel : s.length + 2 ≤ fuel) :
    parseAltF fuel s = .ok (litRE s, []) := by
  cases fuel with
  | zero => exact absurd hfuel (by omega)
  | succ fuel =>
      rw [parseAltF_succ]
      rw [parseSeqF_plain s fuel [] hplain (by omega)]
      rfl

/-- `new RegExp(q, 'gi')` succeeds on a metacharacter-free pattern and
denotes the literal string. -/
theorem parseRegex_plain (q : Str) (hplain : plainStr q = true) :
    parseRegex q = .ok (litRE q) := by
  unfold parseRegex
  rw [parseAltF_plain q (3 * q.length + 3) hplain (by omega)]


/-!
### Matcher and replace on literal patterns
-/

/-- `$`-free replacement templates are emitted verbatim (step case). -/
theorem expandRepl_cons_ne (m : Str) (c : Char) (rest : Str) (hc : ¬ c = '$') :
    expandRepl m (c :: rest) = c :: expandRepl m rest := by
  rw [expandRepl.eq_def]
  split
  next heq => cases heq
  next rest2 heq =>
      rw [List.cons.injEq] at heq
      exact absurd heq.1 hc
  next rest2 heq =>
      rw [List.cons.injEq] at heq
      exact absurd heq.1 hc
  next heq =>
      rw [List.cons.injEq] at heq
      rw [heq.1, heq.2]

/-- `$`-free replacement templates are emitted verbatim. -/
theorem expandRepl_no_dollar (m : Str) : ∀ t : Str, '$' ∉ t → expandRepl m t = t := by
  intro t
  induction t with
  | nil => intro _; rfl
  | cons c rest ih =>
      intro hmem
      have hc : ¬ c = '$' := by
        intro h
        exact hmem (by rw [h]; exact List.mem_cons_self _ _)
      rw [expandRepl_cons_ne m c rest hc]
      rw [ih (fun hx => hmem (List.mem_cons_of_mem _ hx))]

/-- `ciStarts` unfolds along a character. -/
theorem ciStarts_cons (c x : Char) (t xs : Str) :
    ciStarts (c :: t) (x :: xs) = ((x.toLower == c.toLower) && ciStarts t xs) := by
  simp only [ciStarts, jsToLower, List.length_cons, List.take_succ_cons, List.map_cons,
    List.cons.injEq]
  rw [show ((x.toLower == c.toLower) : Bool) = decide (x.toLower = c.toLower) from by
    cases Decidable.em (x.toLower = c.toLower) with
    | inl h => simp [h]
    | inr h => simp [h]]
  rw [← Bool.decide_and]
  apply decide_eq_decide.mpr
  constructor
  · rintro ⟨h1, h2, h3⟩
    exact ⟨h2, by omega, h3⟩
  · rintro ⟨h1, h2, h3⟩
    exact ⟨by omega, h1, h3⟩

/-- A case-insensitive prefix cannot be longer than the string. -/
theorem ciStarts_le {q s : Str} (h : ciStarts q s = true) : q.length ≤ s.length := by
  simp only [ciStarts, decide_eq_true_eq] at h
  exact h.1

/-- `ciStarts` of a non-empty pattern against the empty string is false. -/
theorem ciStarts_nil_false (q : Str) (hq : q ≠ []) : ciStarts q [] = false := by
  have hpos := List.length_pos.mpr hq
  refine Bool.eq_false_iff.mpr (fun hx => ?_)
  have h1 := ciStarts_le hx
  simp only [List.length_nil] at h1
  omega

/-- Size of a literal-chain regex. -/
theorem reSize_litRE (q : Str) : reSize (litRE q) = 2 * q.length + 1 := by
  induction q with
  | nil => rfl
  | cons c t ih =>
      show reSize (RE.cat (RE.chr c) (litRE t)) = _
      simp only [reSize, ih, List.length_cons]
      omega

/-- The matcher on a literal-chain regex performs exactly a
case-insensitive prefix comparison. -/
theorem reMatchF_lit : ∀ (q : Str) (fuel : Nat) (bol : Bool) (s : Str),
    2 * q.length + 1 ≤ fuel →
    reMatchF fuel (litRE q) bol s = if ciStarts q s then [s.drop q.length] else [] := by
  intro q
  induction q with
  | nil =>
      intro fuel bol s hfuel
      cases fuel with
      | zero => exact absurd hfuel (by omega)
      | succ fuel =>
          show reMatchF (fuel + 1) RE.eps bol s = _
          rw [reMatchF]
          have : ciStarts [] s = true := by simp [ciStarts, jsToLower]
          rw [this, if_pos rfl]
          rfl
  | cons c t ih =>
      intro fuel bol s hfuel
      simp only [List.length_cons] at hfuel
      cases fuel with
      | zero => exact absurd hfuel (by omega)
      | succ fuel =>
          show reMatchF (fuel + 1) (RE.cat (RE.chr c) (litRE t)) bol s = _
          rw [reMatchF]
          cases fuel with
          | zero => exact absurd hfuel (by omega)
          | succ fuel2 =>
              cases s with
              | nil =>
                  rw [reMatchF]
                  have : ciStarts (c :: t) [] = false :=
                    ciStarts_nil_false (c :: t) (List.cons_ne_nil c t)
                  rw [this]
                  rfl
              | cons x xs =>
                  rw [reMatchF]
                  rw [ciStarts_cons c x t xs]
                  by_cases hx : ciEq x c = true
                  · have hx2 : (x.toLower == c.toLower) = true := hx
                    rw [if_pos hx, hx2, Bool.true_and]
                    simp only [List.flatMap_cons, List.flatMap_nil, List.append_nil]
                    rw [ih (fuel2 + 1) _ xs (by omega)]
                    simp only [List.length_cons, List.drop_succ_cons]
                  · have hx2 : (x.toLower == c.toLower) = false := by
                      cases hb : (x.toLower == c.toLower) with
                      | false => rfl
                      | true => exact absurd (show ciEq x c = true from hb) hx
                    rw [if_neg hx, hx2, Bool.false_and]
                    simp only [List.flatMap_nil]
                    rfl

/-- The top-level matcher entry on a literal-chain regex. -/
theorem reMatches_lit (q : Str) (bol : Bool) (s : Str) :
    reMatches (litRE q) bol s = if ciStarts q s then [s.drop q.length] else [] := by
  unfold reMatches
  apply reMatchF_lit
  unfold reFuel
  rw [reSize_litRE]
  have h2 : (2 * q.length + 1 + 2) * 2 ≤ (2 * q.length + 1 + 2) * (s.length + 2) :=
    Nat.mul_le_mul_left _ (by omega)
  omega

/-- Definitional unfolding of `litReplaceAllF` at positive fuel on a
nonempty string. -/
theorem litReplaceAllF_succ (q tmpl : Str) (fuel : Nat) (c : Char) (rest : Str) :
    litReplaceAllF q tmpl (fuel + 1) (c :: rest) =
      (if ciStarts q (c :: rest) = true ∧ q ≠ [] then
        tmpl ++ litReplaceAllF q tmpl fuel ((c :: rest).drop q.length)
      else c :: litReplaceAllF q tmpl fuel rest) := rfl

/-- Any two fuels at least the string length give the same result. -/
theorem litReplaceAllF_congr (q tmpl : Str) (fuel1 : Nat) : ∀ (fuel2 : Nat) (s : Str),
    s.length ≤ fuel1 → s.length ≤ fuel2 →
    litReplaceAllF q tmpl fuel1 s = litReplaceAllF q tmpl fuel2 s := by
  induction fuel1 with
  | zero =>
      intro fuel2 s h1 _
      have hs : s = [] := List.eq_nil_of_length_eq_zero (by omega)
      subst hs
      cases fuel2 <;> rfl
  | succ fuel1 ih =>
      intro fuel2 s h1 h2
      cases s with
      | nil => cases fuel2 <;> rfl
      | cons c rest =>
          cases fuel2 with
          | zero => simp at h2
          | succ fuel2 =>
              rw [litReplaceAllF_succ, litReplaceAllF_succ]
              by_cases hc : ciStarts q (c :: rest) = true ∧ q ≠ []
              · have hq1 : 1 ≤ q.length := List.length_pos.mpr hc.2
                rw [if_pos hc, if_pos hc, ih fuel2 _
                  (by simp only [List.length_drop, List.length_cons] at h1 ⊢; omega)
                  (by simp only [List.length_drop, List.length_cons] at h2 ⊢; omega)]
              · rw [if_neg hc, if_neg hc, ih fuel2 rest
                  (by simp only [List.length_cons] at h1; omega)
                  (by simp only [List.length_cons] at h2; omega)]

theorem litReplaceAll_nil (q tmpl : Str) : litReplaceAll q tmpl [] = [] := rfl

theorem litReplaceAll_cons_nomatch (q tmpl : Str) (c : Char) (rest : Str)
    (hcs : ciStarts q (c :: rest) = false) :
    litReplaceAll q tmpl (c :: rest) = c :: litReplaceAll q tmpl rest := by
  unfold litReplaceAll
  rw [List.length_cons, litReplaceAllF_succ]
  rw [if_neg (by rintro ⟨h1, _⟩; rw [hcs] at h1; cases h1)]

theorem litReplaceAll_match (q tmpl s : Str) (hq : q ≠ [])
    (hcs : ciStarts q s = true) :
    litReplaceAll q tmpl s = tmpl ++ litReplaceAll q tmpl (s.drop q.length) := by
  cases s with
  | nil => rw [ciStarts_nil_false q hq] at hcs; cases hcs
  | cons c rest =>
      unfold litReplaceAll
      rw [List.length_cons, litReplaceAllF_succ]
      rw [if_pos ⟨hcs, hq⟩]
      congr 1
      apply litReplaceAllF_congr
      · have hq1 : 1 ≤ q.length := List.length_pos.mpr hq
        simp only [List.length_drop, List.length_cons]
        omega
      · exact le_rfl

/-- Definitional unfolding of `replLoopF` at positive fuel. -/
theorem replLoopF_succ (re : RE) (tmpl : Str) (fuel : Nat) (s : Str) (bol : Bool) :
    replLoopF re tmpl (fuel + 1) s bol =
      (match reMatches re bol s with
      | [] =>
          match s with
          | [] => []
          | c :: rest => c :: replLoopF re tmpl fuel rest false
      | s2 :: _ =>
          let matched := s.take (s.length - s2.length)
          let rep := expandRepl matched tmpl
          if s2.length < s.length then rep ++ replLoopF re tmpl fuel s2 false
          else
            match s with
            | [] => rep
            | c :: rest => rep ++ c :: replLoopF re tmpl fuel rest false) := rfl

/-- Step of the replace loop on a hit that consumes characters. -/
theorem replLoopF_succ_hit (re : RE) (tmpl : Str) (fuel : Nat) (s : Str) (bol : Bool)
    (s2 : Str) (tail : List Str) (hm : reMatches re bol s = s2 :: tail)
    (hlt : s2.length < s.length) :
    replLoopF re tmpl (fuel + 1) s bol =
      expandRepl (s.take (s.length - s2.length)) tmpl ++ replLoopF re tmpl fuel s2 false := by
  rw [replLoopF_succ, hm]
  simp only [if_pos hlt]

/-- Step of the replace loop when nothing matches at a non-empty point. -/
theorem replLoopF_succ_miss (re : RE) (tmpl : Str) (fuel : Nat) (c : Char)
    (rest : Str) (bol : Bool) (hm : reMatches re bol (c :: rest) = []) :
    replLoopF re tmpl (fuel + 1) (c :: rest) bol =
      c :: replLoopF re tmpl fuel rest false := by
  rw [replLoopF_succ, hm]

/-- The replace loop at the end of the subject with no match. -/
theorem replLoopF_succ_nil (re : RE) (tmpl : Str) (fuel : Nat) (bol : Bool)
    (hm : reMatches re bol [] = []) :
    replLoopF re tmpl (fuel + 1) [] bol = [] := by
  rw [replLoopF_succ, hm]

/-- On a literal-chain regex, the global replace at adequate fuel is
exactly the literal case-insensitive replace-all. -/
theorem replLoopF_lit (q tmpl : Str) (hq : q ≠ []) (hd : '$' ∉ tmpl) :
    ∀ (fuel : Nat) (s : Str) (bol : Bool), s.length < fuel →
      replLoopF (litRE q) tmpl fuel s bol = litReplaceAll q tmpl s := by
  have hqpos := List.length_pos.mpr hq
  intro fuel
  induction fuel with
  | zero =>
      intro s bol h
      exact absurd h (by omega)
  | succ fuel ih =>
      intro s bol hlen
      by_cases hb : ciStarts q s = true
      · have hm : reMatches (litRE q) bol s = (s.drop q.length) :: [] := by
          rw [reMatches_lit, if_pos hb]
        have hle := ciStarts_le hb
        have hdl : (s.drop q.length).length < s.length := by
          simp only [List.length_drop]
          omega
        rw [replLoopF_succ_hit (litRE q) tmpl fuel s bol (s.drop q.length) [] hm hdl]
        rw [expandRepl_no_dollar _ tmpl hd]
        rw [ih (s.drop q.length) false (by simp only [List.length_drop]; omega)]
        rw [litReplaceAll_match q tmpl s hq hb]
      · have hm : reMatches (litRE q) bol s = [] := by
          rw [reMatches_lit, if_neg hb]
        cases s with
        | nil =>
            rw [replLoopF_succ_nil (litRE q) tmpl fuel bol hm]
            rw [litReplaceAll_nil]
        | cons c rest =>
            rw [replLoopF_succ_miss (litRE q) tmpl fuel c rest bol hm]
            rw [ih rest false (by simp only [List.length_cons] at hlen; omega)]
            rw [litReplaceAll_cons_nomatch q tmpl c rest (Bool.eq_false_iff.mpr hb)]

/-- The replace loop on a literal-chain regex. -/
theorem replLoop_lit (q tmpl : Str) (hq : q ≠ []) (hd : '$' ∉ tmpl)
    (s : Str) (bol : Bool) : replLoop (litRE q) tmpl s bol = litReplaceAll q tmpl s :=
  replLoopF_lit q tmpl hq hd (s.length + 1) s bol (by omega)

/-- `context.replace(new RegExp(q, 'gi'), tmpl)` on a metacharacter-free
non-empty query is the literal case-insensitive replace-all. -/
theorem jsReplaceGi_plain (s q tmpl : Str) (hq : q ≠ []) (hp : plainStr q = true)
    (hd : '$' ∉ tmpl) :
    jsReplaceGi s q tmpl = .ok (litReplaceAll q tmpl s) := by
  unfold jsReplaceGi
  rw [parseRegex_plain q hp]
  show Except.ok (replLoop (litRE q) tmpl s true) = _
  rw [replLoop_lit q tmpl hq hd s true]


/-- The replacement template built from a metacharacter-free query has
no `$`. -/
theorem hlTmpl_no_dollar (q : Str) (hp : plainStr q = true) : '$' ∉ hlTmpl q := by
  intro hmem
  unfold hlTmpl at hmem
  have hstar : ('$' : Char) ∉ strL "**" := by decide
  rcases List.mem_append.mp hmem with h | h
  · rcases List.mem_append.mp h with h2 | h2
    · exact hstar h2
    · simp only [plainStr, List.all_eq_true] at hp
      have hpc := hp '$' h2
      exact absurd hpc (by decide)
  · exact hstar h


/-!
### Context windows
-/

/-- For a non-negative `contextLength` and an in-range match position,
the code's `substring` window is the claim's mathematical slice. -/
theorem codeWindow_eq_slice (content q : Str) (cl : Int) (pos : Nat)
    (hcl : 0 ≤ cl) (hpos : pos + q.length ≤ content.length) :
    jsTrim (codeWindow content q cl pos) = specContextOf content q.length pos cl := by
  unfold codeWindow specContextOf
  rw [jsSubstring_of_bounds content (max 0 ((pos : Int) - cl))
    (min (content.length : Int) ((pos : Int) + (q.length : Int) + cl))
    (by omega) (by omega) (by omega)]

/-!
### Identifier generation
-/

theorem decVal_append : ∀ (s t : Str) (acc : Nat),
    decVal (s ++ t) acc = decVal t (decVal s acc) := by
  intro s
  induction s with
  | nil => intro t acc; rfl
  | cons c rest ih => intro t acc; exact ih t _

theorem digitChar_val : ∀ d < 10, (Nat.digitChar d).toNat - 48 = d := by decide

/-- Rendering then parsing is the identity, for adequate fuel. -/
theorem parseDec_natDecF : ∀ (fuel n : Nat), n < 10 ^ fuel →
    parseDec (natDecF fuel n) = n := by
  intro fuel
  induction fuel with
  | zero =>
      intro n hn
      have hn0 : n = 0 := by simpa using hn
      subst hn0
      rfl
  | succ fuel ih =>
      intro n hn
      by_cases h10 : n < 10
      · show parseDec (if n < 10 then [Nat.digitChar n]
          else natDecF fuel (n / 10) ++ [Nat.digitChar (n % 10)]) = n
        rw [if_pos h10]
        show 0 * 10 + ((Nat.digitChar n).toNat - 48) = n
        rw [digitChar_val n h10]
        omega
      · show parseDec (if n < 10 then [Nat.digitChar n]
          else natDecF fuel (n / 10) ++ [Nat.digitChar (n % 10)]) = n
        rw [if_neg h10]
        unfold parseDec
        rw [decVal_append]
        have hdiv : n / 10 < 10 ^ fuel := by
          rw [Nat.div_lt_iff_lt_mul (by norm_num)]
          calc n < 10 ^ (fuel + 1) := hn
            _ = 10 ^ fuel * 10 := by rw [pow_succ]
        rw [show decVal (natDecF fuel (n / 10)) 0 = parseDec (natDecF fuel (n / 10)) from rfl,
          ih (n / 10) hdiv]
        show (n / 10) * 10 + ((Nat.digitChar (n % 10)).toNat - 48) = n
        rw [digitChar_val (n % 10) (Nat.mod_lt n (by norm_num))]
        omega

/-- Parsing inverts the decimal rendering. -/
theorem parseDec_natDec (n : Nat) : parseDec (natDec n) = n := by
  apply parseDec_natDecF
  calc n < 10 ^ n := Nat.lt_pow_self (by norm_num) n
    _ ≤ 10 ^ (n + 1) := Nat.pow_le_pow_right (by norm_num) (by omega)

/-- Every character produced by the rendering is a digit character. -/
theorem natDecF_digits : ∀ (fuel n : Nat), ∀ c ∈ natDecF fuel n,
    ∃ d, d < 10 ∧ c = Nat.digitChar d := by
  intro fuel
  induction fuel with
  | zero =>
      intro n c hc
      exact absurd hc (List.not_mem_nil c)
  | succ fuel ih =>
      intro n c hc
      by_cases h10 : n < 10
      · rw [show natDecF (fuel + 1) n = [Nat.digitChar n] from by
          show (if n < 10 then _ else _) = _; rw [if_pos h10]] at hc
        rcases List.mem_singleton.mp hc with rfl
        exact ⟨n, h10, rfl⟩
      · rw [show natDecF (fuel + 1) n =
            natDecF fuel (n / 10) ++ [Nat.digitChar (n % 10)] from by
          show (if n < 10 then _ else _) = _; rw [if_neg h10]] at hc
        rcases List.mem_append.mp hc with hm | hm
        · exact ih (n / 10) c hm
        · rcases List.mem_singleton.mp hm with rfl
          exact ⟨n % 10, Nat.mod_lt n (by norm_num), rfl⟩

/-- The decimal rendering contains no underscore. -/
theorem natDec_ne_underscore (n : Nat) : ∀ c ∈ natDec n, c ≠ '_' := by
  intro c hc
  obtain ⟨d, hd, rfl⟩ := natDecF_digits (n + 1) n c hc
  revert hd
  have haux : ∀ x < 10, Nat.digitChar x ≠ '_' := by decide
  exact haux d

/-- Decimal rendering is injective. -/
theorem natDec_inj : ∀ a b : Nat, natDec a = natDec b → a = b := by
  intro a b h
  have h2 := congrArg parseDec h
  rwa [parseDec_natDec, parseDec_natDec] at h2

/-- Splitting at an underscore separator is unambiguous when neither
left part contains an underscore. -/
theorem append_underscore_inj : ∀ (a1 a2 r1 r2 : Str),
    (∀ c ∈ a1, c ≠ '_') → (∀ c ∈ a2, c ≠ '_') →
    a1 ++ '_' :: r1 = a2 ++ '_' :: r2 → a1 = a2 ∧ r1 = r2 := by
  intro a1
  induction a1 with
  | nil =>
      intro a2 r1 r2 _ h2 h
      cases a2 with
      | nil =>
          simp only [List.nil_append, List.cons.injEq] at h
          exact ⟨rfl, h.2⟩
      | cons c2 t2 =>
          simp only [List.nil_append, List.cons_append, List.cons.injEq] at h
          exact absurd h.1.symm (h2 c2 (List.mem_cons_self _ _))
  | cons c t ih =>
      intro a2 r1 r2 h1 h2 h
      cases a2 with
      | nil =>
          simp only [List.nil_append, List.cons_append, List.cons.injEq] at h
          exact absurd h.1 (h1 c (List.mem_cons_self _ _))
      | cons c2 t2 =>
          simp only [List.cons_append, List.cons.injEq] at h
          obtain ⟨rfl, h3⟩ := h
          have := ih t2 r1 r2 (fun x hx => h1 x (List.mem_cons_of_mem _ hx))
            (fun x hx => h2 x (List.mem_cons_of_mem _ hx)) h3
          exact ⟨by rw [this.1], this.2⟩

/-- Identifiers built from distinct draws are distinct, provided the
random suffixes contain no underscore (`toString(36)` output never
does). -/
theorem mkDocId_inj (t1 t2 : Nat) (r1 r2 : Str)
    (h1 : ∀ c ∈ r1, c ≠ '_') (h2 : ∀ c ∈ r2, c ≠ '_')
    (heq : mkDocId t1 r1 = mkDocId t2 r2) : t1 = t2 ∧ r1 = r2 := by
  unfold mkDocId at heq
  rw [List.append_assoc, List.append_assoc] at heq
  have heq2 : natDec t1 ++ '_' :: r1 = natDec t2 ++ '_' :: r2 :=
    List.append_cancel_left heq
  have := append_underscore_inj (natDec t1) (natDec t2) r1 r2
    (natDec_ne_underscore t1) (natDec_ne_underscore t2) heq2
  exact ⟨natDec_inj t1 t2 this.1, this.2⟩

/-!
### Helper facts for `get-pdf-content`
-/

theorem clampIdx_of_ge (len : Nat) (x : Int) (h : (len : Int) ≤ x) :
    clampIdx len x = len := by
  unfold clampIdx
  omega

theorem jsSubstring_empty_of_ge (s : Str) (a b : Int)
    (ha : (s.length : Int) ≤ a) (hb : (s.length : Int) ≤ b) :
    jsSubstring s a b = [] := by
  unfold jsSubstring
  rw [clampIdx_of_ge s.length a ha, clampIdx_of_ge s.length b hb]
  simp

theorem jsSubstringFrom_empty_of_ge (s : Str) (a : Int)
    (h : (s.length : Int) ≤ a) : jsSubstringFrom s a = [] :=
  jsSubstring_empty_of_ge s a (s.length : Int) h le_rfl

/-- A successful store lookup reduces the handler to its payload
builder. -/
theorem getPdfContent_found (docs : List PDFDocument) (docId : Str)
    (sc : Int) (l : Option Int) (doc : PDFDocument)
    (hd : lookupDoc docs docId = some doc) :
    getPdfContent docs docId sc l =
      .ok doc.id doc.filename sc
        (if jsTruthyNum l then jsSubstring doc.content sc (sc + l.getD 0)
         else jsSubstringFrom doc.content sc).length
        (if jsTruthyNum l then jsSubstring doc.content sc (sc + l.getD 0)
         else jsSubstringFrom doc.content sc) := by
  unfold getPdfContent
  rw [hd]

/-- Every reported match of a successful search comes from a stored
document, records a genuine case-insensitive occurrence within bounds,
and carries the trimmed window as context and the regex-replace of the
untrimmed window as preview. -/
theorem searchPdfs_match_elim (docs : List PDFDocument) (q : Str) (k cl : Int)
    (out : SearchOutput) (h : searchPdfs docs q k cl = .ok out) :
    ∀ r ∈ out.results, ∀ m ∈ r.matchList, ∃ d ∈ docs,
      m.position + (jsToLower q).length ≤ (jsToLower d.content).length ∧
      occursAt (jsToLower d.content) (jsToLower q) m.position = true ∧
      m.context = jsTrim (codeWindow d.content q cl m.position) ∧
      jsReplaceGi (codeWindow d.content q cl m.position) q (hlTmpl q) = .ok m.preview := by
  intro r hr m hm
  obtain ⟨rs, hrs, hout⟩ := searchPdfs_ok_elim docs q k cl out h
  rw [hout] at hr
  rcases searchDocsLoop_provenance q k cl docs [] rs hrs r hr with hmem | ⟨d, hd, ms, hscan, hpos, rfl⟩
  · exact absurd hmem (List.not_mem_nil r)
  · have hm2 : m ∈ ms := mem_of_mem_matchList hm
    have hscan2 : scanLoop d.content (jsToLower d.content) q (jsToLower q) k cl 0 [] = .ok ms := hscan
    rcases scanLoop_mem d.content (jsToLower d.content) q (jsToLower q) k cl 0 [] ms hscan2 m hm2 with hmem | hfact
    · exact absurd hmem (List.not_mem_nil m)
    · exact ⟨d, hd, hfact⟩

/-!
## The claims
-/

/-- C1 (amended): for a non-empty query free of regex metacharacters the
search handler completes without throwing, whatever the stored contents
and limits are. -/
theorem search_plain_query_ok (docs : List PDFDocument) (q : Str) (k cl : Int)
    (hq : q ≠ []) (hp : plainStr q = true) :
    (searchPdfs docs q k cl).isOk = true :=
  searchPdfs_ok_of_parse docs q k cl (litRE q) (parseRegex_plain q hp)

theorem search_plain_query_ok_witness :
    (searchPdfs [mkDoc "d1" "a.pdf" "ab"] (strL "a") 10 200).isOk = true :=
  search_plain_query_ok [mkDoc "d1" "a.pdf" "ab"] (strL "a") 10 200
    (by decide) (by decide)

/-- The query `(` aborts the search with a thrown regex syntax error as
soon as it occurs literally in a stored document: the unescaped
`new RegExp(query, 'gi')` of line 113 runs only on a located match. -/
theorem search_special_query_throws :
    searchPdfs [mkDoc "d1" "a.pdf" "a(b"] (strL "(") 10 200 =
      .error "Unterminated group" := rfl

/-- C2: the positions reported for a document are exactly the spec's
left-to-right non-overlapping case-insensitive scan (next search at
`matchStart + len(query)`), capped at `maxResults`; with the cap slack
they are exactly the full scan, and each one is a genuine zero-based
occurrence offset. -/
theorem search_positions_are_greedy_scan (docs : List PDFDocument) (q : Str)
    (k cl : Int) (out : SearchOutput) (hq : q ≠ []) (hk : 1 ≤ k)
    (h : searchPdfs docs q k cl = .ok out) :
    ∀ r ∈ out.results, ∃ d ∈ docs,
      r.matchList.map (fun m => m.position) =
        (greedyOccs (jsToLower d.content) (jsToLower q)).take k.toNat ∧
      ((greedyOccs (jsToLower d.content) (jsToLower q)).length ≤ k.toNat →
        r.matchList.map (fun m => m.position) =
          greedyOccs (jsToLower d.content) (jsToLower q)) ∧
      ∀ m ∈ r.matchList,
        occursAt (jsToLower d.content) (jsToLower q) m.position = true := by
  intro r hr
  obtain ⟨rs, hrs, hout⟩ := searchPdfs_ok_elim docs q k cl out h
  rw [hout] at hr
  rcases searchDocsLoop_provenance q k cl docs [] rs hrs r hr with hmem | ⟨d, hd, ms, hscan, hpos, rfl⟩
  · exact absurd hmem (List.not_mem_nil r)
  · have hscan2 : scanLoop d.content (jsToLower d.content) q (jsToLower q) k cl 0 [] = .ok ms := hscan
    have hacc : ((([] : List SearchMatch).length : Nat) : Int) < k := by
      simp only [List.length_nil, Int.ofNat_zero]
      omega
    have hlen := scanLoop_length_le d.content (jsToLower d.content) q (jsToLower q)
      k cl 0 [] ms hacc hscan2
    have hml : (mkResult d ms k).matchList = ms :=
      mkResult_matchList_all d ms k (by omega)
    have hposs := scanLoop_positions d.content (jsToLower d.content) q (jsToLower q)
      k cl hq (jsToLower_length q) 0 [] ms hacc hscan2
    simp only [List.map_nil, List.nil_append, List.length_nil, Nat.sub_zero] at hposs
    refine ⟨d, hd, ?_, ?_, ?_⟩
    · rw [hml, hposs]
      rfl
    · intro hle
      rw [hml, hposs]
      show (greedyOccs (jsToLower d.content) (jsToLower q)).take k.toNat = _
      exact List.take_of_length_le hle
    · intro m hm
      rw [hml] at hm
      rcases scanLoop_mem d.content (jsToLower d.content) q (jsToLower q) k cl 0 [] ms hscan2 m hm with hmem | hfact
      · exact absurd hmem (List.not_mem_nil m)
      · exact hfact.2.1

theorem search_positions_are_greedy_scan_witness :
    ∃ d ∈ [mkDoc "d1" "a.pdf" "ab"],
      (SearchResult.mk (strL "d1") (strL "a.pdf") 1
          [⟨0, strL "ab", strL "**a**b"⟩] ⟨1, 100, 0⟩).matchList.map (fun m => m.position) =
        (greedyOccs (jsToLower d.content) (jsToLower (strL "a"))).take (10 : Int).toNat ∧
      ((greedyOccs (jsToLower d.content) (jsToLower (strL "a"))).length ≤ (10 : Int).toNat →
        (SearchResult.mk (strL "d1") (strL "a.pdf") 1
            [⟨0, strL "ab", strL "**a**b"⟩] ⟨1, 100, 0⟩).matchList.map (fun m => m.position) =
          greedyOccs (jsToLower d.content) (jsToLower (strL "a"))) ∧
      ∀ m ∈ (SearchResult.mk (strL "d1") (strL "a.pdf") 1
          [⟨0, strL "ab", strL "**a**b"⟩] ⟨1, 100, 0⟩).matchList,
        occursAt (jsToLower d.content) (jsToLower (strL "a")) m.position = true :=
  search_positions_are_greedy_scan [mkDoc "d1" "a.pdf" "ab"] (strL "a") 10 200
    ⟨strL "a", 1, 1, [⟨strL "d1", strL "a.pdf", 1, [⟨0, strL "ab", strL "**a**b"⟩], ⟨1, 100, 0⟩⟩]⟩
    (by decide) (by decide) rfl
    ⟨strL "d1", strL "a.pdf", 1, [⟨0, strL "ab", strL "**a**b"⟩], ⟨1, 100, 0⟩⟩
    (by decide)

/-- C3 (amended): for a positive `maxResults = k`, a search returns at
most `k` result documents, each with at most `k` matches, and each
result's `totalMatches` equals the length of its returned matches
list. -/
theorem search_cap_and_counts (docs : List PDFDocument) (q : Str) (k cl : Int)
    (out : SearchOutput) (hk : 1 ≤ k) (h : searchPdfs docs q k cl = .ok out) :
    out.results.length ≤ k.toNat ∧
    ∀ r ∈ out.results, r.matchList.length ≤ k.toNat ∧
      r.totalMatches = r.matchList.length := by
  obtain ⟨rs, hrs, hout⟩ := searchPdfs_ok_elim docs q k cl out h
  constructor
  · rw [hout]
    exact searchDocsLoop_length q k cl docs [] rs
      (by simp only [List.length_nil, Int.ofNat_zero]; omega) hrs
  · intro r hr
    rw [hout] at hr
    rcases searchDocsLoop_provenance q k cl docs [] rs hrs r hr with hmem | ⟨d, hd, ms, hscan, hpos, rfl⟩
    · exact absurd hmem (List.not_mem_nil r)
    · have hscan2 : scanLoop d.content (jsToLower d.content) q (jsToLower q) k cl 0 [] = .ok ms := hscan
      have hacc : ((([] : List SearchMatch).length : Nat) : Int) < k := by
        simp only [List.length_nil, Int.ofNat_zero]
        omega
      have hlen := scanLoop_length_le d.content (jsToLower d.content) q (jsToLower q)
        k cl 0 [] ms hacc hscan2
      have hml : (mkResult d ms k).matchList = ms :=
        mkResult_matchList_all d ms k (by omega)
      constructor
      · rw [hml]
        exact hlen
      · show ms.length = (mkResult d ms k).matchList.length
        rw [hml]

theorem search_cap_and_counts_witness :
    (SearchOutput.mk (strL "a") 1 1
        [⟨strL "d1", strL "a.pdf", 1, [⟨0, strL "ab", strL "**a**b"⟩], ⟨1, 100, 0⟩⟩]).results.length ≤ (10 : Int).toNat ∧
    ∀ r ∈ (SearchOutput.mk (strL "a") 1 1
        [⟨strL "d1", strL "a.pdf", 1, [⟨0, strL "ab", strL "**a**b"⟩], ⟨1, 100, 0⟩⟩]).results,
      r.matchList.length ≤ (10 : Int).toNat ∧ r.totalMatches = r.matchList.length :=
  search_cap_and_counts [mkDoc "d1" "a.pdf" "ab"] (strL "a") 10 200
    ⟨strL "a", 1, 1, [⟨strL "d1", strL "a.pdf", 1, [⟨0, strL "ab", strL "**a**b"⟩], ⟨1, 100, 0⟩⟩]⟩
    (by decide) rfl

/-- With `maxResults = 0` the handler still returns one result document
whose `totalMatches` is 1 while its sliced matches list is empty: the
claimed cap (at most `k` documents) and the claimed count equality both
fail at `k = 0`. -/
theorem search_cap_zero_cex :
    outResultCount (searchPdfs [mkDoc "d1" "a.pdf" "the quick brown fox the quick fox"]
        (strL "quick") 0 5) = 1 ∧
    outCounts (searchPdfs [mkDoc "d1" "a.pdf" "the quick brown fox the quick fox"]
        (strL "quick") 0 5) = [(1, 0)] :=
  ⟨rfl, rfl⟩

/-- C4 (amended): for a non-negative `contextLength`, every reported
match's context is the claimed window slice of the content, trimmed. -/
theorem match_context_is_window_slice (docs : List PDFDocument) (q : Str)
    (k cl : Int) (out : SearchOutput) (hcl : 0 ≤ cl)
    (h : searchPdfs docs q k cl = .ok out) :
    ∀ r ∈ out.results, ∀ m ∈ r.matchList, ∃ d ∈ docs,
      m.context = specContextOf d.content q.length m.position cl := by
  intro r hr m hm
  obtain ⟨d, hd, hb, hocc, hctx, hprev⟩ := searchPdfs_match_elim docs q k cl out h r hr m hm
  refine ⟨d, hd, ?_⟩
  rw [hctx]
  apply codeWindow_eq_slice
  · exact hcl
  · have h1 := jsToLower_length q
    have h2 := jsToLower_length d.content
    omega

theorem match_context_is_window_slice_witness :
    ∃ d ∈ [mkDoc "d1" "a.pdf" "ab"],
      (SearchMatch.mk 0 (strL "ab") (strL "**a**b")).context =
        specContextOf d.content (strL "a").length
          (SearchMatch.mk 0 (strL "ab") (strL "**a**b")).position 200 :=
  match_context_is_window_slice [mkDoc "d1" "a.pdf" "ab"] (strL "a") 10 200
    ⟨strL "a", 1, 1, [⟨strL "d1", strL "a.pdf", 1, [⟨0, strL "ab", strL "**a**b"⟩], ⟨1, 100, 0⟩⟩]⟩
    (by decide) rfl
    ⟨strL "d1", strL "a.pdf", 1, [⟨0, strL "ab", strL "**a**b"⟩], ⟨1, 100, 0⟩⟩ (by decide)
    ⟨0, strL "ab", strL "**a**b"⟩ (by decide)

/-- With a negative `contextLength` the code's `substring` swaps the
crossed bounds and returns the whole content, while the claimed
mathematical slice is empty: the context formula fails at
`contextLength = -4`. -/
theorem match_context_negative_context_cex :
    firstMatch (searchPdfs [mkDoc "d1" "a.pdf" "abcdef"] (strL "c") 10 (-4)) =
      some ⟨2, strL "abcdef", strL "ab**c**def"⟩ ∧
    specContextOf (strL "abcdef") (strL "c").length 2 (-4) = [] :=
  ⟨rfl, rfl⟩

/-- C5 (amended): for a non-empty query free of regex metacharacters,
every reported preview is the *untrimmed* context window with every
case-insensitive occurrence of the query *replaced* by the query wrapped
in the highlight marker (the query's own casing, not the matched
text's). -/
theorem match_preview_is_literal_replace (docs : List PDFDocument) (q : Str)
    (k cl : Int) (out : SearchOutput) (hq : q ≠ []) (hp : plainStr q = true)
    (h : searchPdfs docs q k cl = .ok out) :
    ∀ r ∈ out.results, ∀ m ∈ r.matchList, ∃ d ∈ docs,
      m.preview = litReplaceAll q (hlTmpl q) (codeWindow d.content q cl m.position) := by
  intro r hr m hm
  obtain ⟨d, hd, hb, hocc, hctx, hprev⟩ := searchPdfs_match_elim docs q k cl out h r hr m hm
  refine ⟨d, hd, ?_⟩
  rw [jsReplaceGi_plain (codeWindow d.content q cl m.position) q (hlTmpl q) hq hp
    (hlTmpl_no_dollar q hp)] at hprev
  exact (Except.ok.inj hprev).symm

theorem match_preview_is_literal_replace_witness :
    ∃ d ∈ [mkDoc "d1" "a.pdf" "ab"],
      (SearchMatch.mk 0 (strL "ab") (strL "**a**b")).preview =
        litReplaceAll (strL "a") (hlTmpl (strL "a"))
          (codeWindow d.content (strL "a") 200
            (SearchMatch.mk 0 (strL "ab") (strL "**a**b")).position) :=
  match_preview_is_literal_replace [mkDoc "d1" "a.pdf" "ab"] (strL "a") 10 200
    ⟨strL "a", 1, 1, [⟨strL "d1", strL "a.pdf", 1, [⟨0, strL "ab", strL "**a**b"⟩], ⟨1, 100, 0⟩⟩]⟩
    (by decide) (by decide) rfl
    ⟨strL "d1", strL "a.pdf", 1, [⟨0, strL "ab", strL "**a**b"⟩], ⟨1, 100, 0⟩⟩ (by decide)
    ⟨0, strL "ab", strL "**a**b"⟩ (by decide)

/-- The preview is built from the untrimmed window and replaces the
matched text by the query's own casing, so it is not the context with
occurrences wrapped: on content `" Quick brown"` the context is
`"Quick brown"` but the preview is `" **quick** brown"`, not the
claimed `"**Quick** brown"`. -/
theorem match_preview_not_wrapped_context_cex :
    firstMatch (searchPdfs [mkDoc "d1" "a.pdf" " Quick brown"] (strL "quick") 10 200) =
      some ⟨1, strL "Quick brown", strL " **quick** brown"⟩ ∧
    specWrapOccs (strL "quick") (strL "Quick brown") = strL "**Quick** brown" :=
  ⟨rfl, rfl⟩

/-- C6 (amended): the search handler performs no input validation at
all — an empty query is accepted with any `maxResults` and
`contextLength`, negative included, and a success payload is returned. -/
theorem search_accepts_any_arguments (docs : List PDFDocument) (k cl : Int) :
    (searchPdfs docs [] k cl).isOk = true :=
  searchPdfs_ok_of_parse docs [] k cl (litRE []) (parseRegex_plain [] rfl)

/-- An empty query together with negative `maxResults` and
`contextLength` is not rejected: the handler returns a success payload
(here one result document with an emptied matches list). -/
theorem search_no_validation_cex :
    searchPdfs [mkDoc "d1" "a.pdf" "ab"] [] (-1) (-1) =
      .ok ⟨[], 1, 1, [⟨strL "d1", strL "a.pdf", 1, [], ⟨1, 100, 0⟩⟩]⟩ := rfl

/-- C7 (amended): identifiers from a sequence of registration calls are
pairwise distinct provided the `(timestamp, random suffix)` draws are
pairwise distinct as pairs (the suffixes being underscore-free, as
`toString(36)` output always is); identical timestamps alone do not
collide. -/
theorem register_ids_nodup_of_draws_nodup (draws : List (Nat × Str))
    (hnd : draws.Nodup) (hr : ∀ p ∈ draws, ∀ c ∈ p.2, c ≠ '_') :
    (registerDocIds draws).Nodup := by
  unfold registerDocIds
  refine List.Nodup.map_on ?_ hnd
  intro x hx y hy hxy
  have h2 := mkDocId_inj x.1 y.1 x.2 y.2 (hr x hx) (hr y hy) hxy
  exact Prod.ext h2.1 h2.2

theorem register_ids_nodup_witness :
    (registerDocIds [(5, strL "aaaaaaaaa"), (6, strL "aaaaaaaaa")]).Nodup :=
  register_ids_nodup_of_draws_nodup [(5, strL "aaaaaaaaa"), (6, strL "aaaaaaaaa")]
    (by decide) (by decide)

/-- Two registration calls that observe the same millisecond timestamp
and the same `Math.random` draw produce the same identifier: uniqueness
holds only for distinct draws, not unconditionally. -/
theorem register_ids_collide_cex :
    ¬ (registerDocIds [(5, strL "aaaaaaaaa"), (5, strL "aaaaaaaaa")]).Nodup := by
  decide

/-- C8 (amended): an unknown `docId` yields the not-found error with no
payload; a known `docId` with `startChar` at or beyond the content
length yields an empty slice when `length` is omitted or non-negative
(a negative `length` instead swaps the `substring` bounds and can
return a non-empty slice). -/
theorem get_content_notfound_and_empty_beyond (docs : List PDFDocument)
    (docId : Str) (sc : Int) (l : Option Int) :
    (lookupDoc docs docId = none →
      getPdfContent docs docId sc l = .err (strL "Document not found")) ∧
    (∀ doc, lookupDoc docs docId = some doc →
      (doc.content.length : Int) ≤ sc → (∀ L, l = some L → 0 ≤ L) →
      getPdfContent docs docId sc l = .ok doc.id doc.filename sc 0 []) := by
  constructor
  · intro hn
    unfold getPdfContent
    rw [hn]
  · intro doc hd hsc hl
    rw [getPdfContent_found docs docId sc l doc hd]
    have hcont : (if jsTruthyNum l then jsSubstring doc.content sc (sc + l.getD 0)
        else jsSubstringFrom doc.content sc) = ([] : Str) := by
      cases l with
      | none => exact jsSubstringFrom_empty_of_ge doc.content sc hsc
      | some L =>
          by_cases hL0 : L = 0
          · subst hL0
            exact jsSubstringFrom_empty_of_ge doc.content sc hsc
          · have htr : jsTruthyNum (some L) = true := by
              simp [jsTruthyNum, hL0]
            rw [htr, if_pos rfl]
            have hLpos : (0 : Int) ≤ L := hl L rfl
            exact jsSubstring_empty_of_ge doc.content sc (sc + (some L).getD 0) hsc
              (by simp only [Option.getD_some]; omega)
    rw [hcont]
    rfl

/-- A negative `length` combined with an out-of-range `startChar` swaps
the `substring` bounds: on a 10-character document, `startChar = 100`
with `length = -95` returns `"56789"`, not the claimed empty slice. -/
theorem get_content_negative_length_cex :
    getPdfContent [mkDoc "d1" "a.pdf" "0123456789"] (strL "d1") 100 (some (-95)) =
      .ok (strL "d1") (strL "a.pdf") 100 5 (strL "56789") := rfl

/-- C9 (amended): on the spec's scenario document the two matches of
`"quick"` are at offsets 4 and 24 (not 21), each context is the 5-around
window trimmed, and each preview carries the highlighted query. -/
theorem scenario_quick_fox_amended :
    searchPdfs [mkDoc "d1" "a.pdf" "the quick brown fox the quick fox"]
        (strL "quick") 10 5 =
      .ok ⟨strL "quick", 1, 1,
        [⟨strL "d1", strL "a.pdf", 2,
          [⟨4, strL "the quick brow", strL "the **quick** brow"⟩,
           ⟨24, strL "the quick fox", strL " the **quick** fox"⟩],
          ⟨1, 100, 0⟩⟩]⟩ := rfl

/-- The scenario's second match is at offset 24, not the claimed 21. -/
theorem scenario_quick_fox_not_21 :
    outPositions (searchPdfs [mkDoc "d1" "a.pdf" "the quick brown fox the quick fox"]
        (strL "quick") 10 5) ≠ [[4, 21]] := by
  decide

/-- C10: a `length` argument explicitly equal to 0 is falsy, so the
handler returns the entire remaining content from `startChar`, exactly
as when `length` is omitted. -/
theorem get_content_zero_length_whole_tail (docs : List PDFDocument)
    (docId : Str) (sc : Int) (doc : PDFDocument)
    (hd : lookupDoc docs docId = some doc) :
    getPdfContent docs docId sc (some 0) = getPdfContent docs docId sc none ∧
    getPdfContent docs docId sc (some 0) =
      .ok doc.id doc.filename sc (jsSubstringFrom doc.content sc).length
        (jsSubstringFrom doc.content sc) := by
  rw [getPdfContent_found docs docId sc (some 0) doc hd,
      getPdfContent_found docs docId sc none doc hd]
  exact ⟨rfl, rfl⟩

theorem get_content_zero_length_whole_tail_witness :
    getPdfContent [mkDoc "d1" "a.pdf" "0123456789"] (strL "d1") 4 (some 0) =
      getPdfContent [mkDoc "d1" "a.pdf" "0123456789"] (strL "d1") 4 none ∧
    getPdfContent [mkDoc "d1" "a.pdf" "0123456789"] (strL "d1") 4 (some 0) =
      .ok (mkDoc "d1" "a.pdf" "0123456789").id (mkDoc "d1" "a.pdf" "0123456789").filename 4
        (jsSubstringFrom (mkDoc "d1" "a.pdf" "0123456789").content 4).length
        (jsSubstringFrom (mkDoc "d1" "a.pdf" "0123456789").content 4) :=
  get_content_zero_length_whole_tail [mkDoc "d1" "a.pdf" "0123456789"] (strL "d1") 4
    (mkDoc "d1" "a.pdf" "0123456789") rfl

end MpcPdf
